import Mathlib

/-!
Verification development for the data-cleaning routines of
`src/preprocessing.py` (Identify-Customer-Segments).

A pandas `DataFrame` is modelled as a `Table`: a list of named, dtyped
columns together with a list of rows.  A cell is `Option Val`, with `none`
playing the role of `np.nan`; a `Val` is either a rational number (pandas
numeric dtypes) or a string (object dtype).  Thresholds are rationals.

Pandas `NaN`-comparison semantics are kept: a per-row missing fraction over
zero columns is `NaN`, and both `NaN <= t` and `NaN > t` are false, which is
embedded by guarding every fraction comparison with `length ≠ 0`.
-/

namespace Segments

/-- pandas column dtype, as far as the code inspects it:
`select_dtypes(include=["object", "category"])` versus everything numeric. -/
inductive Dtype
  | numeric
  | obj
deriving DecidableEq

/-- A scalar value stored in a dataframe cell. -/
inductive Val
  | num (q : ℚ)
  | str (s : String)
deriving DecidableEq

/-- A cell; `none` models `np.nan`. -/
abbrev Cell := Option Val

/-- A dataframe: named, dtyped columns plus a list of rows. -/
structure Table where
  cols : List (String × Dtype)
  rows : List (List Cell)
deriving DecidableEq

def emptyTable : Table := ⟨[], []⟩

instance : Inhabited Table := ⟨emptyTable⟩

def Table.colNames (t : Table) : List String := t.cols.map Prod.fst

def Table.shape (t : Table) : Nat × Nat := (t.rows.length, t.cols.length)

/-- Well-formedness: every row has exactly one cell per column. -/
def Table.WF (t : Table) : Prop := ∀ r ∈ t.rows, r.length = t.cols.length

instance (t : Table) : Decidable t.WF := List.decidableBAll _ _

/-- Extract the values of the first column called `name`
(recursing like pandas column selection by label). -/
def getColAux : List (String × Dtype) → List (List Cell) → String → Option (List Cell)
  | [], _, _ => none
  | c :: cs, rows, name =>
    if c.1 = name then some (rows.map (fun r => r.getD 0 none))
    else getColAux cs (rows.map (fun r => r.drop 1)) name

def Table.getCol (t : Table) (name : String) : Option (List Cell) :=
  getColAux t.cols t.rows name

def Table.getDtype (t : Table) (name : String) : Option Dtype :=
  (t.cols.find? (fun c => c.1 = name)).map (fun c => c.2)

/-! ## `encode_missing_values` (src/preprocessing.py lines 19-61) -/

/-- A `missing_value_map`: association list from a column name (or `"ALL"`)
to the integer sentinel codes treated as missing. -/
abbrev MVMap := List (String × List ℤ)

/-- The default map used when `missing_value_map is None`. -/
def defaultMap : MVMap := [("ALL", [-1, -2, -3, -9])]

/-- Does the cell hold a numeric value listed in `vs`?
(`df.replace([-1, ...], np.nan)` matches numerically; strings never match.) -/
def cellMatches (vs : List ℤ) (c : Cell) : Bool :=
  match c with
  | some (Val.num q) => vs.any (fun v => q = (v : ℚ))
  | _ => false

/-- Replace a sentinel-coded cell by the missing marker. -/
def repl (vs : List ℤ) (c : Cell) : Cell :=
  if cellMatches vs c then none else c

/-- Apply `f` to the cells of every column called `col`
(`df_clean[col] = df_clean[col].replace(values, np.nan)` acts per column). -/
def applyNamed : List String → String → (Cell → Cell) → List Cell → List Cell
  | n :: ns, col, f, c :: cs => (if n = col then f c else c) :: applyNamed ns col f cs
  | _, _, _, cs => cs

/-- In-frame update of one named column. -/
def setColumn (t : Table) (col : String) (vs : List ℤ) : Table :=
  ⟨t.cols, t.rows.map (applyNamed t.colNames col (repl vs))⟩

/-- `df_clean.replace(missing_value_map["ALL"], np.nan, inplace=True)`:
the global replacement hits every cell of the frame. -/
def globalReplace (vs : List ℤ) (t : Table) : Table :=
  ⟨t.cols, t.rows.map (List.map (repl vs))⟩

/-- One iteration of the column-specific loop of `encode_missing_values`. -/
def encodeStep (acc : Table) (e : String × List ℤ) : Table :=
  if e.1 = "ALL" then acc
  else if e.1 ∈ acc.colNames then setColumn acc e.1 e.2 else acc

/-- `encode_missing_values(df, missing_value_map)`. -/
def encode_missing_values (t : Table) (missing_value_map : Option MVMap) : Table :=
  let m := missing_value_map.getD defaultMap
  let df1 :=
    match m.lookup "ALL" with
    | some vs => globalReplace vs t
    | none => t
  m.foldl encodeStep df1

/-! ## `drop_high_missing_columns` (lines 64-91) and
`split_by_row_missingness` (lines 94-122) -/

def rowMissingCount (r : List Cell) : Nat := r.countP (fun c => c.isNone)

/-- `row_missing_frac <= threshold` with pandas `NaN` semantics: a mean over
zero columns is `NaN` and the comparison is false.  The fraction comparison
`count / length ≤ threshold` is stored cross-multiplied so that it is kernel
computable; `keptMask_div` below proves it equal to the division form. -/
def keptMask (r : List Cell) (threshold : ℚ) : Bool :=
  decide (r.length ≠ 0 ∧
    (rowMissingCount r : ℤ) * (threshold.den : ℤ) ≤ threshold.num * (r.length : ℤ))

/-- `row_missing_frac > threshold`, same conventions. -/
def exclMask (r : List Cell) (threshold : ℚ) : Bool :=
  decide (r.length ≠ 0 ∧
    threshold.num * (r.length : ℤ) < (rowMissingCount r : ℤ) * (threshold.den : ℤ))

/-- `split_by_row_missingness(df, threshold) -> (main_df, high_missing_df)`. -/
def split_by_row_missingness (t : Table) (threshold : ℚ) : Table × Table :=
  (⟨t.cols, t.rows.filter (fun r => keptMask r threshold)⟩,
   ⟨t.cols, t.rows.filter (fun r => exclMask r threshold)⟩)

/-- Number of missing entries of column `j`. -/
def colMissingCount (t : Table) (j : Nat) : Nat :=
  t.rows.countP (fun r => (r.getD j none).isNone)

/-- `missing_frac[j] > threshold`; over zero rows the mean is `NaN` and the
comparison is false.  Cross-multiplied like `keptMask`; see `colDropped_div`. -/
def colDropped (t : Table) (j : Nat) (threshold : ℚ) : Bool :=
  decide (t.rows.length ≠ 0 ∧
    threshold.num * (t.rows.length : ℤ) < (colMissingCount t j : ℤ) * (threshold.den : ℤ))

/-- Remove the positions whose mask bit is `true`. -/
def dropMasked {α : Type} : List Bool → List α → List α
  | true :: bs, _ :: xs => dropMasked bs xs
  | false :: bs, x :: xs => x :: dropMasked bs xs
  | _, xs => xs

/-- Keep exactly the positions whose mask bit is `true` (the dropped names). -/
def takeMasked {α : Type} : List Bool → List α → List α
  | true :: bs, x :: xs => x :: takeMasked bs xs
  | false :: bs, _ :: xs => takeMasked bs xs
  | _, _ => []

/-- Per-column drop decisions, in original column order. -/
def dropMask (t : Table) (threshold : ℚ) : List Bool :=
  (List.range t.cols.length).map (fun j => colDropped t j threshold)

/-- `drop_high_missing_columns(df, threshold) -> (df_reduced, dropped_cols)`. -/
def drop_high_missing_columns (t : Table) (threshold : ℚ) : Table × List String :=
  let mask := dropMask t threshold
  (⟨dropMasked mask t.cols, t.rows.map (fun r => dropMasked mask r)⟩,
   takeMasked mask t.colNames)

/-! ## `convert_categorical` (lines 125-171) -/

/-- The fixed binary remapping `.map({1: 0, 2: 1}).astype("float")`:
unmapped values (anything outside `{1, 2}`, including `NaN`) become `NaN`. -/
def binmap : Cell → Cell
  | some (Val.num q) =>
    if q = 1 then some (Val.num 0) else if q = 2 then some (Val.num 1) else none
  | _ => none

/-- `df_encoded.drop(columns=to_drop)`. -/
def dropByNames (t : Table) (to_drop : List String) : Table :=
  let mask := t.cols.map (fun c => decide (c.1 ∈ to_drop))
  ⟨dropMasked mask t.cols, t.rows.map (fun r => dropMasked mask r)⟩

/-- `df_encoded[col] = df_encoded[col].map({1: 0, 2: 1}).astype("float")`:
the column keeps its name, its cells are remapped, its dtype becomes float. -/
def mapBinaryCol (t : Table) (col : String) : Table :=
  ⟨t.cols.map (fun c => if c.1 = col then (c.1, Dtype.numeric) else c),
   t.rows.map (applyNamed t.colNames col binmap)⟩

/-- Character comparison for sorting the observed categories. -/
def strLeAux : List Char → List Char → Bool
  | [], _ => true
  | _ :: _, [] => false
  | a :: as, b :: bs =>
    if a.toNat < b.toNat then true
    else if b.toNat < a.toNat then false
    else strLeAux as bs

def strLe (a b : String) : Bool := strLeAux a.toList b.toList

def valLe : Val → Val → Bool
  | Val.num a, Val.num b => decide (a ≤ b)
  | Val.num _, Val.str _ => true
  | Val.str _, Val.num _ => false
  | Val.str a, Val.str b => strLe a b

def insertSorted (v : Val) : List Val → List Val
  | [] => [v]
  | x :: xs => if valLe v x then v :: x :: xs else x :: insertSorted v xs

def sortVals (l : List Val) : List Val := l.foldr insertSorted []

/-- Suffix used to label an indicator column (`f"{col}_{value}"`). -/
def valStr : Val → String
  | Val.str s => s
  | Val.num q => toString q.num ++ "/" ++ toString q.den

/-- The values of column `j`. -/
def colVals (t : Table) (j : Nat) : List Cell := t.rows.map (fun r => r.getD j none)

/-- Categories retained by `pd.get_dummies(..., drop_first=True)`:
distinct observed non-missing values, sorted, first one dropped. -/
def cats (cs : List Cell) : List Val := (sortVals (cs.filterMap id).dedup).drop 1

/-- Each column paired with its retained categories (empty for numeric columns). -/
def dummyInfo (t : Table) : List ((String × Dtype) × List Val) :=
  t.cols.enum.map (fun p => (p.2, if p.2.2 = Dtype.obj then cats (colVals t p.1) else []))

/-- `true` exactly at the object/category columns that get one-hot encoded. -/
def objMask (t : Table) : List Bool := t.cols.map (fun c => decide (c.2 = Dtype.obj))

/-- The indicator cells appended to one row. -/
def mkDummies : List ((String × Dtype) × List Val) → List Cell → List Cell
  | (c, cs) :: es, x :: xs =>
    (if c.2 = Dtype.obj then
      cs.map (fun v => if x = some v then some (Val.num 1) else some (Val.num 0))
    else []) ++ mkDummies es xs
  | _, _ => []

/-- Names and dtypes of the appended indicator columns. -/
def dummyCols (info : List ((String × Dtype) × List Val)) : List (String × Dtype) :=
  info.foldr (fun p acc =>
    (if p.1.2 = Dtype.obj then
      p.2.map (fun v => (p.1.1 ++ "_" ++ valStr v, Dtype.numeric))
    else []) ++ acc) []

/-- `pd.get_dummies(df_encoded, columns=cat_cols, drop_first=True)`:
non-categorical columns keep their order, indicator columns are appended. -/
def get_dummies (t : Table) : Table :=
  ⟨dropMasked (objMask t) t.cols ++ dummyCols (dummyInfo t),
   t.rows.map (fun r => dropMasked (objMask t) r ++ mkDummies (dummyInfo t) r)⟩

/-- One iteration of the `for col in binary_cols` loop. -/
def binaryStep (acc : Table) (col : String) : Table :=
  if col ∈ acc.colNames then mapBinaryCol acc col else acc

/-- The `if drop_cols:` block (Python-truthy: `None` and `[]` both skip):
`to_drop = [c for c in drop_cols if c in df_encoded.columns]` then drop. -/
def dropStage (t : Table) (drop_cols : Option (List String)) : Table :=
  match drop_cols with
  | some (d :: ds) => dropByNames t ((d :: ds).filter (fun c => decide (c ∈ t.colNames)))
  | _ => t

/-- The `if binary_cols:` block (Python-truthy guard again). -/
def binaryStage (binary_cols : Option (List String)) (t : Table) : Table :=
  match binary_cols with
  | some (b :: bs) => (b :: bs).foldl binaryStep t
  | _ => t

/-- `convert_categorical(df, binary_cols, drop_cols)`: drop the nominated
columns, remap the nominated binary columns, one-hot encode the rest. -/
def convert_categorical (t : Table)
    (binary_cols drop_cols : Option (List String)) : Table :=
  get_dummies (binaryStage binary_cols (dropStage t drop_cols))

/-! ## `clean_demographic_data` (lines 174-241) -/

/-- The metadata dictionary returned by the pipeline. -/
structure Metadata where
  original_shape : Nat × Nat
  dropped_columns : List String
  high_missing_rows_count : Nat
  cleaned_shape : Nat × Nat
deriving DecidableEq

/-- `clean_demographic_data`: encode missing values, drop sparse columns,
split rows and keep the main partition, encode categoricals. -/
def clean_demographic_data (t : Table) (missing_value_map : Option MVMap)
    (col_missing_threshold row_missing_threshold : ℚ)
    (binary_cols drop_cols : Option (List String)) : Table × Metadata :=
  let original_shape := t.shape
  let df_mv := encode_missing_values t missing_value_map
  let p := drop_high_missing_columns df_mv col_missing_threshold
  let q := split_by_row_missingness p.1 row_missing_threshold
  let cleaned := convert_categorical q.1 binary_cols drop_cols
  (cleaned, ⟨original_shape, p.2, q.2.rows.length, cleaned.shape⟩)

/-! ## Heap model for the non-destructiveness claim

Python dataframes are heap objects; `df.copy()` allocates, `inplace=True`
mutates the allocated copy, and `pd.get_dummies` returns a fresh frame.  A
`Store` is the list of live frames; an operation takes the index of its
input frame and returns the new store plus the index of its result. -/

abbrev Store := List Table

/-- One in-place iteration of the column-specific loop, acting on frame `j`. -/
def encodeHeapStep (j : Nat) (acc : Store) (e : String × List ℤ) : Store :=
  if e.1 = "ALL" then acc
  else if e.1 ∈ (acc.getD j emptyTable).colNames then
    acc.set j (setColumn (acc.getD j emptyTable) e.1 e.2)
  else acc

/-- One in-place iteration of the `binary_cols` loop, acting on frame `j`. -/
def binaryHeapStep (j : Nat) (acc : Store) (col : String) : Store :=
  if col ∈ (acc.getD j emptyTable).colNames then
    acc.set j (mapBinaryCol (acc.getD j emptyTable) col)
  else acc

/-- The in-place global `"ALL"` replacement on frame `j`. -/
def globalHeapStage (j : Nat) (m : MVMap) (s : Store) : Store :=
  match m.lookup "ALL" with
  | some vs => s.set j (globalReplace vs (s.getD j emptyTable))
  | none => s

/-- The in-place `if drop_cols:` block, acting on frame `j`. -/
def dropHeapStage (j : Nat) (dc : Option (List String)) (s : Store) : Store :=
  match dc with
  | some (d :: ds) =>
    s.set j (dropByNames (s.getD j emptyTable)
      ((d :: ds).filter (fun c => decide (c ∈ (s.getD j emptyTable).colNames))))
  | _ => s

/-- The in-place `if binary_cols:` block, acting on frame `j`. -/
def binaryHeapStage (j : Nat) (bc : Option (List String)) (s : Store) : Store :=
  match bc with
  | some (b :: bs) => (b :: bs).foldl (binaryHeapStep j) s
  | _ => s

/-- `encode_missing_values` at the heap level: copy the input, then perform
the same replacements in place on the copy. -/
def encode_missing_values_heap (st : Store) (i : Nat)
    (missing_value_map : Option MVMap) : Store × Nat :=
  let j := st.length
  let st1 := st ++ [st.getD i emptyTable]
  let m := missing_value_map.getD defaultMap
  let st2 := globalHeapStage j m st1
  let st3 := m.foldl (encodeHeapStep j) st2
  (st3, j)

/-- `convert_categorical` at the heap level: copy, mutate the copy in place,
then bind the `get_dummies` result to a fresh frame. -/
def convert_categorical_heap (st : Store) (i : Nat)
    (binary_cols drop_cols : Option (List String)) : Store × Nat :=
  let j := st.length
  let st1 := st ++ [st.getD i emptyTable]
  let st2 := dropHeapStage j drop_cols st1
  let st3 := binaryHeapStage j binary_cols st2
  let k := st3.length
  (st3 ++ [get_dummies (st3.getD j emptyTable)], k)

/-! ## Row- and cell-level views of `encode_missing_values`

These definitions restate the frame-level steps of the encoder one row
(respectively one cell) at a time; the lemmas below prove that the encoder
factors through them.  They exist only to support the proofs. -/

/-- The action of one `encodeStep` on a single row. -/
def colStep (names : List String) (r : List Cell) (e : String × List ℤ) : List Cell :=
  if e.1 = "ALL" then r
  else if e.1 ∈ names then applyNamed names e.1 (repl e.2) r else r

/-- The action of the global `"ALL"` replacement on a single row. -/
def globalRow (m : MVMap) (r : List Cell) : List Cell :=
  match m.lookup "ALL" with
  | some vs => r.map (repl vs)
  | none => r

/-- The action of the whole encoder on a single row. -/
def encodeRow (m : MVMap) (names : List String) (r : List Cell) : List Cell :=
  m.foldl (colStep names) (globalRow m r)

/-- The action of one `encodeStep` on the cell at column position `k`. -/
def cellStep (names : List String) (k : Nat) (c : Cell) (e : String × List ℤ) : Cell :=
  if e.1 ≠ "ALL" ∧ names.getD k "" = e.1 then repl e.2 c else c

/-- The action of the global `"ALL"` replacement on a single cell. -/
def globalCell (m : MVMap) (c : Cell) : Cell :=
  match m.lookup "ALL" with
  | some vs => repl vs c
  | none => c

/-- The action of the whole encoder on the cell at column position `k`. -/
def encodeCell (m : MVMap) (names : List String) (k : Nat) (c : Cell) : Cell :=
  m.foldl (cellStep names k) (globalCell m c)

/-- The cell of `t` at row `i`, column position `j` (out of range: missing). -/
def Table.cell (t : Table) (i j : Nat) : Cell := (t.rows.getD i []).getD j none

/-- Is the first column called `name` kept by the mask (`true` = dropped)? -/
def keptCol : List Bool → List (String × Dtype) → String → Bool
  | b :: bs, c :: cs, name => if c.1 = name then !b else keptCol bs cs name
  | _, _, _ => false

/-! ## Theorems -/

/-- The stored comparison of `keptMask` is exactly
`count / length ≤ threshold` on rationals. -/
theorem keptMask_div (r : List Cell) (thr : ℚ) :
    keptMask r thr =
      decide (r.length ≠ 0 ∧ (rowMissingCount r : ℚ) / (r.length : ℚ) ≤ thr) := by
  rw [keptMask, decide_eq_decide]
  refine and_congr_right fun h => ?_
  have hlen : (0 : ℚ) < (r.length : ℚ) := by
    exact_mod_cast Nat.pos_of_ne_zero h
  have hden : (0 : ℚ) < (thr.den : ℚ) := by
    exact_mod_cast thr.pos
  rw [div_le_iff₀ hlen]
  conv_rhs => rw [← Rat.num_div_den thr]
  rw [div_mul_eq_mul_div, le_div_iff₀ hden]
  constructor
  · intro hle
    exact_mod_cast hle
  · intro hle
    exact_mod_cast hle

/-- The stored comparison of `exclMask` is exactly
`threshold < count / length` on rationals. -/
theorem exclMask_div (r : List Cell) (thr : ℚ) :
    exclMask r thr =
      decide (r.length ≠ 0 ∧ thr < (rowMissingCount r : ℚ) / (r.length : ℚ)) := by
  rw [exclMask, decide_eq_decide]
  refine and_congr_right fun h => ?_
  have hlen : (0 : ℚ) < (r.length : ℚ) := by
    exact_mod_cast Nat.pos_of_ne_zero h
  have hden : (0 : ℚ) < (thr.den : ℚ) := by
    exact_mod_cast thr.pos
  rw [lt_div_iff₀ hlen]
  conv_rhs => rw [← Rat.num_div_den thr]
  rw [div_mul_eq_mul_div, div_lt_iff₀ hden]
  constructor
  · intro hlt
    exact_mod_cast hlt
  · intro hlt
    exact_mod_cast hlt

/-- The stored comparison of `colDropped` is exactly
`threshold < count / nrows` on rationals. -/
theorem colDropped_div (t : Table) (j : Nat) (thr : ℚ) :
    colDropped t j thr =
      decide (t.rows.length ≠ 0 ∧
        thr < (colMissingCount t j : ℚ) / (t.rows.length : ℚ)) := by
  rw [colDropped, decide_eq_decide]
  refine and_congr_right fun h => ?_
  have hlen : (0 : ℚ) < (t.rows.length : ℚ) := by
    exact_mod_cast Nat.pos_of_ne_zero h
  have hden : (0 : ℚ) < (thr.den : ℚ) := by
    exact_mod_cast thr.pos
  rw [lt_div_iff₀ hlen]
  conv_rhs => rw [← Rat.num_div_den thr]
  rw [div_mul_eq_mul_div, div_lt_iff₀ hden]
  constructor
  · intro hlt
    exact_mod_cast hlt
  · intro hlt
    exact_mod_cast hlt

/-! ### Generic list facts -/

theorem foldl_preserves {α β : Type} (f : β → α → β) (P : β → Prop)
    (h : ∀ b a, P b → P (f b a)) :
    ∀ (l : List α) (b : β), P b → P (l.foldl f b) := by
  intro l
  induction l with
  | nil => exact fun b hb => hb
  | cons a l ih => exact fun b hb => ih _ (h b a hb)

theorem foldl_filter_id {α β : Type} (p : α → Bool) (f : β → α → β)
    (h : ∀ b a, p a = false → f b a = b) :
    ∀ (l : List α) (b : β), (l.filter p).foldl f b = l.foldl f b := by
  intro l
  induction l with
  | nil => intro b; rfl
  | cons a l ih =>
    intro b
    by_cases ha : p a = true
    · rw [List.filter_cons_of_pos ha, List.foldl_cons, List.foldl_cons, ih]
    · rw [List.filter_cons_of_neg (by simpa using ha), List.foldl_cons,
        h b a (by simpa using ha), ih]

theorem lookup_filter_keep {β : Type} (k : String) (p : String × β → Bool)
    (l : List (String × β)) (h : ∀ e ∈ l, e.1 = k → p e = true) :
    (l.filter p).lookup k = l.lookup k := by
  induction l with
  | nil => rfl
  | cons e l ih =>
    by_cases he : e.1 = k
    · rw [List.filter_cons_of_pos (h e (by simp) he)]
      simp [List.lookup, he.symm]
    · have hk : (k == e.1) = false := by
        simpa using fun hkk => he hkk.symm
      by_cases hp : p e = true
      · rw [List.filter_cons_of_pos hp]
        simp only [List.lookup, hk]
        exact ih (fun x hx hxk => h x (by simp [hx]) hxk)
      · rw [List.filter_cons_of_neg (by simpa using hp)]
        simp only [List.lookup, hk]
        exact ih (fun x hx hxk => h x (by simp [hx]) hxk)

/-! ### `applyNamed` -/

theorem applyNamed_length (col : String) (f : Cell → Cell) :
    ∀ (ns : List String) (cs : List Cell),
      (applyNamed ns col f cs).length = cs.length := by
  intro ns
  induction ns with
  | nil => intro cs; cases cs <;> simp [applyNamed]
  | cons n ns ih =>
    intro cs
    cases cs with
    | nil => simp [applyNamed]
    | cons c cs => simp [applyNamed, ih]

theorem applyNamed_getD (col : String) (f : Cell → Cell) :
    ∀ (ns : List String) (cs : List Cell) (k : Nat),
      k < ns.length → k < cs.length →
      (applyNamed ns col f cs).getD k none =
        (if ns.getD k "" = col then f (cs.getD k none) else cs.getD k none) := by
  intro ns
  induction ns with
  | nil => intro cs k hk _; simp at hk
  | cons n ns ih =>
    intro cs k hk hc
    cases cs with
    | nil => simp at hc
    | cons c cs =>
      cases k with
      | zero => simp [applyNamed]
      | succ k =>
        simp only [applyNamed, List.getD_cons_succ]
        exact ih cs k (by simpa using hk) (by simpa using hc)

theorem applyNamed_getD_ge (col : String) (f : Cell → Cell) :
    ∀ (ns : List String) (cs : List Cell) (k : Nat), ns.length ≤ k →
      (applyNamed ns col f cs).getD k none = cs.getD k none := by
  intro ns
  induction ns with
  | nil => intro cs k _; cases cs <;> simp [applyNamed]
  | cons n ns ih =>
    intro cs k hk
    cases cs with
    | nil => simp [applyNamed]
    | cons c cs =>
      cases k with
      | zero => simp at hk
      | succ k =>
        simp only [applyNamed, List.getD_cons_succ]
        exact ih cs k (by simpa using hk)

/-! ### Factoring the encoder through rows and cells -/

theorem getD_map_lt {α β : Type} (f : α → β) (l : List α) (k : Nat)
    (h : k < l.length) (d₁ : β) (d₂ : α) :
    (l.map f).getD k d₁ = f (l.getD k d₂) := by
  rw [List.getD_eq_getElem _ _ (by simpa using h), List.getElem_map,
    List.getD_eq_getElem _ _ h]

theorem foldl_encodeStep (m : MVMap) :
    ∀ (cols : List (String × Dtype)) (rows : List (List Cell)),
      List.foldl encodeStep ⟨cols, rows⟩ m =
        ⟨cols, rows.map (fun r => List.foldl (colStep (cols.map Prod.fst)) r m)⟩ := by
  induction m with
  | nil => intro cols rows; simp
  | cons e m ih =>
    intro cols rows
    simp only [List.foldl_cons]
    by_cases hall : e.1 = "ALL"
    · rw [show encodeStep ⟨cols, rows⟩ e = ⟨cols, rows⟩ by simp [encodeStep, hall], ih]
      refine congrArg _ (List.map_congr_left fun r _ => ?_)
      rw [show colStep (cols.map Prod.fst) r e = r by simp [colStep, hall]]
    · by_cases hmem : e.1 ∈ cols.map Prod.fst
      · rw [show encodeStep ⟨cols, rows⟩ e =
            ⟨cols, rows.map (applyNamed (cols.map Prod.fst) e.1 (repl e.2))⟩ by
          simp [encodeStep, setColumn, hall, hmem, Table.colNames], ih, List.map_map]
        refine congrArg _ (List.map_congr_left fun r _ => ?_)
        simp only [Function.comp_apply]
        rw [show colStep (cols.map Prod.fst) r e =
            applyNamed (cols.map Prod.fst) e.1 (repl e.2) r by simp [colStep, hall, hmem]]
      · rw [show encodeStep ⟨cols, rows⟩ e = ⟨cols, rows⟩ by
          simp [encodeStep, hall, hmem, Table.colNames], ih]
        refine congrArg _ (List.map_congr_left fun r _ => ?_)
        rw [show colStep (cols.map Prod.fst) r e = r by simp [colStep, hall, hmem]]

/-- The encoder acts on each row independently. -/
theorem encode_NF (t : Table) (m? : Option MVMap) :
    encode_missing_values t m? =
      ⟨t.cols, t.rows.map (encodeRow (m?.getD defaultMap) t.colNames)⟩ := by
  obtain ⟨cols, rows⟩ := t
  simp only [encode_missing_values, Table.colNames]
  cases hl : (m?.getD defaultMap).lookup "ALL" with
  | none =>
    rw [foldl_encodeStep]
    refine congrArg (Table.mk cols) (List.map_congr_left fun r _ => ?_)
    unfold encodeRow globalRow
    rw [hl]
  | some vs =>
    simp only []
    rw [show globalReplace vs (Table.mk cols rows) =
        Table.mk cols (rows.map (List.map (repl vs))) from rfl,
      foldl_encodeStep, List.map_map]
    refine congrArg (Table.mk cols) (List.map_congr_left fun r _ => ?_)
    simp only [Function.comp_apply]
    unfold encodeRow globalRow
    rw [hl]

theorem colStep_length (names : List String) (r : List Cell) (e : String × List ℤ) :
    (colStep names r e).length = r.length := by
  unfold colStep
  by_cases hall : e.1 = "ALL"
  · simp [hall]
  · by_cases hmem : e.1 ∈ names <;> simp [hall, hmem, applyNamed_length]

theorem foldl_colStep_length (names : List String) :
    ∀ (m : MVMap) (r : List Cell),
      (List.foldl (colStep names) r m).length = r.length := by
  intro m
  induction m with
  | nil => intro r; rfl
  | cons e m ih =>
    intro r
    rw [List.foldl_cons, ih, colStep_length]

theorem globalRow_length (m : MVMap) (r : List Cell) :
    (globalRow m r).length = r.length := by
  unfold globalRow
  cases m.lookup "ALL" <;> simp

theorem encodeRow_length (m : MVMap) (names : List String) (r : List Cell) :
    (encodeRow m names r).length = r.length := by
  unfold encodeRow
  rw [foldl_colStep_length, globalRow_length]

theorem foldl_colStep_getD (names : List String) :
    ∀ (m : MVMap) (r : List Cell) (k : Nat), k < names.length → k < r.length →
      (List.foldl (colStep names) r m).getD k none =
        List.foldl (cellStep names k) (r.getD k none) m := by
  intro m
  induction m with
  | nil => intro r k _ _; rfl
  | cons e m ih =>
    intro r k hk hr
    rw [List.foldl_cons, List.foldl_cons,
      ih (colStep names r e) k hk (by rw [colStep_length]; exact hr)]
    refine congrArg (fun c => List.foldl (cellStep names k) c m) ?_
    unfold colStep cellStep
    by_cases hall : e.1 = "ALL"
    · simp [hall]
    · by_cases hmem : e.1 ∈ names
      · rw [if_neg hall, if_pos hmem, applyNamed_getD _ _ _ _ _ hk hr]
        by_cases hn : names.getD k "" = e.1
        · rw [if_pos hn, if_pos ⟨hall, hn⟩]
        · rw [if_neg hn, if_neg (fun hc => hn hc.2)]
      · rw [if_neg hall, if_neg hmem]
        have hn : ¬ names.getD k "" = e.1 := by
          intro hc
          refine hmem ?_
          rw [← hc, List.getD_eq_getElem _ _ hk]
          exact List.getElem_mem hk
        rw [if_neg (fun hc => hn hc.2)]

theorem foldl_colStep_getD_ge (names : List String) :
    ∀ (m : MVMap) (r : List Cell) (k : Nat), names.length ≤ k →
      (List.foldl (colStep names) r m).getD k none = r.getD k none := by
  intro m
  induction m with
  | nil => intro r k _; rfl
  | cons e m ih =>
    intro r k hk
    rw [List.foldl_cons, ih (colStep names r e) k hk]
    unfold colStep
    by_cases hall : e.1 = "ALL"
    · rw [if_pos hall]
    · rw [if_neg hall]
      by_cases hmem : e.1 ∈ names
      · rw [if_pos hmem, applyNamed_getD_ge _ _ _ _ _ hk]
      · rw [if_neg hmem]

theorem globalRow_getD (m : MVMap) (r : List Cell) (k : Nat) (hr : k < r.length) :
    (globalRow m r).getD k none = globalCell m (r.getD k none) := by
  unfold globalRow globalCell
  cases m.lookup "ALL" with
  | none => rfl
  | some vs => exact getD_map_lt _ _ _ hr _ _

theorem encodeRow_getD (m : MVMap) (names : List String) (r : List Cell) (k : Nat)
    (hk : k < names.length) (hr : k < r.length) :
    (encodeRow m names r).getD k none = encodeCell m names k (r.getD k none) := by
  unfold encodeRow encodeCell
  rw [foldl_colStep_getD names m _ k hk (by rw [globalRow_length]; exact hr),
    globalRow_getD m r k hr]

theorem encodeRow_getD_ge (m : MVMap) (names : List String) (r : List Cell) (k : Nat)
    (hk : names.length ≤ k) (hr : k < r.length) :
    (encodeRow m names r).getD k none = globalCell m (r.getD k none) := by
  unfold encodeRow
  rw [foldl_colStep_getD_ge names m _ k hk, globalRow_getD m r k hr]

/-! ### Erasure behaviour of the cell-level encoder -/

theorem repl_none (vs : List ℤ) : repl vs none = none := rfl

theorem repl_out (vs : List ℤ) (c : Cell) : repl vs c = c ∨ repl vs c = none := by
  unfold repl
  by_cases h : cellMatches vs c = true
  · rw [if_pos h]; right; rfl
  · rw [if_neg h]; left; rfl

theorem foldl_cellStep_none (names : List String) (k : Nat) :
    ∀ m : MVMap, List.foldl (cellStep names k) none m = none := by
  intro m
  induction m with
  | nil => rfl
  | cons e m ih =>
    rw [List.foldl_cons]
    have hstep : cellStep names k none e = none := by
      unfold cellStep
      by_cases h : (e.1 ≠ "ALL" ∧ names.getD k "" = e.1)
      · rw [if_pos h, repl_none]
      · rw [if_neg h]
    rw [hstep, ih]

theorem foldl_cellStep_out (names : List String) (k : Nat) :
    ∀ (m : MVMap) (c : Cell),
      List.foldl (cellStep names k) c m = c ∨
        List.foldl (cellStep names k) c m = none := by
  intro m
  induction m with
  | nil => intro c; left; rfl
  | cons e m ih =>
    intro c
    rw [List.foldl_cons]
    have hstep : cellStep names k c e = c ∨ cellStep names k c e = none := by
      unfold cellStep
      by_cases h : (e.1 ≠ "ALL" ∧ names.getD k "" = e.1)
      · rw [if_pos h]; exact repl_out e.2 c
      · rw [if_neg h]; left; rfl
    rcases hstep with h | h
    · rw [h]; exact ih c
    · rw [h, foldl_cellStep_none]; right; rfl

theorem globalCell_none (m : MVMap) : globalCell m none = none := by
  unfold globalCell
  cases m.lookup "ALL" <;> rfl

theorem globalCell_out (m : MVMap) (c : Cell) :
    globalCell m c = c ∨ globalCell m c = none := by
  unfold globalCell
  cases m.lookup "ALL" with
  | none => left; rfl
  | some vs => exact repl_out vs c

theorem globalCell_idem (m : MVMap) (c : Cell) :
    globalCell m (globalCell m c) = globalCell m c := by
  rcases globalCell_out m c with h | h
  · rw [h]; exact h
  · rw [h]; exact globalCell_none m

theorem encodeCell_none (m : MVMap) (names : List String) (k : Nat) :
    encodeCell m names k none = none := by
  unfold encodeCell
  rw [globalCell_none, foldl_cellStep_none]

theorem encodeCell_out (m : MVMap) (names : List String) (k : Nat) (c : Cell) :
    encodeCell m names k c = c ∨ encodeCell m names k c = none := by
  unfold encodeCell
  rcases globalCell_out m c with h | h
  · rw [h]; exact foldl_cellStep_out names k m c
  · rw [h, foldl_cellStep_none]; right; rfl

theorem encodeCell_idem (m : MVMap) (names : List String) (k : Nat) (c : Cell) :
    encodeCell m names k (encodeCell m names k c) = encodeCell m names k c := by
  rcases encodeCell_out m names k c with h | h
  · rw [h]; exact h
  · rw [h]; exact encodeCell_none m names k

theorem encodeRow_idem (m : MVMap) (names : List String) (r : List Cell) :
    encodeRow m names (encodeRow m names r) = encodeRow m names r := by
  apply List.ext_getElem
  · rw [encodeRow_length, encodeRow_length]
  · intro k h1 h2
    have hr : k < r.length := by rw [encodeRow_length] at h2; exact h2
    rw [← List.getD_eq_getElem _ none h1, ← List.getD_eq_getElem _ none h2]
    by_cases hk : k < names.length
    · rw [encodeRow_getD m names _ k hk (by rw [encodeRow_length]; exact hr),
        encodeRow_getD m names r k hk hr, encodeCell_idem]
    · push_neg at hk
      rw [encodeRow_getD_ge m names _ k hk (by rw [encodeRow_length]; exact hr),
        encodeRow_getD_ge m names r k hk hr, globalCell_idem]

/-- C4: encoding missing values twice with the same map yields the same table
as encoding once (`encode_missing_values` is idempotent). -/
theorem C4_encode_idempotent (t : Table) (m? : Option MVMap) :
    encode_missing_values (encode_missing_values t m?) m? =
      encode_missing_values t m? := by
  rw [encode_NF t m?,
    encode_NF (Table.mk t.cols (t.rows.map (encodeRow (m?.getD defaultMap) t.colNames))) m?]
  simp only [Table.colNames, List.map_map]
  refine congrArg (Table.mk t.cols) (List.map_congr_left fun r _ => ?_)
  simp only [Function.comp_apply]
  exact encodeRow_idem _ _ _

/-! ### Split and drop: partition, boundary, thresholds -/

theorem rowMissingCount_le (r : List Cell) : rowMissingCount r ≤ r.length :=
  List.countP_le_length _

theorem colMissingCount_le (t : Table) (j : Nat) :
    colMissingCount t j ≤ t.rows.length :=
  List.countP_le_length _

theorem dropMasked_getD_mem {α : Type} (d : α) :
    ∀ (bs : List Bool) (xs : List α) (j : Nat), bs.getD j true = false →
      j < xs.length → xs.getD j d ∈ dropMasked bs xs := by
  intro bs
  induction bs with
  | nil => intro xs j hb _; simp at hb
  | cons b bs ih =>
    intro xs j hb hx
    cases xs with
    | nil => simp at hx
    | cons x xs =>
      cases j with
      | zero =>
        have hb0 : b = false := by simpa using hb
        subst hb0
        simp [dropMasked]
      | succ j =>
        have hb' : bs.getD j true = false := by simpa using hb
        have hx' : j < xs.length := by simpa using hx
        cases b
        · simp only [dropMasked, List.getD_cons_succ]
          exact List.mem_cons_of_mem _ (ih xs j hb' hx')
        · simp only [dropMasked, List.getD_cons_succ]
          exact ih xs j hb' hx'

/-- C1 (counterexample): on a table with one row and zero columns the row-wise
missing fraction is `NaN`, both filters reject the row, and the two parts of
`split_by_row_missingness` together hold fewer rows than the input. -/
theorem C1_partition_counterexample :
    ¬ ((split_by_row_missingness ⟨[], [[]]⟩ (mkRat 3 10)).1.rows.length +
        (split_by_row_missingness ⟨[], [[]]⟩ (mkRat 3 10)).2.rows.length =
        (Table.mk [] [[]]).rows.length) := by
  decide

/-- Core partition fact shared by the C1 and C10 developments. -/
theorem split_partition_core (t : Table) (threshold : ℚ) (hwf : t.WF)
    (hc : t.cols ≠ []) :
    (split_by_row_missingness t threshold).1.rows.length +
      (split_by_row_missingness t threshold).2.rows.length = t.rows.length ∧
    (∀ r ∈ t.rows, exclMask r threshold = !keptMask r threshold) ∧
    List.Perm ((split_by_row_missingness t threshold).1.rows ++
      (split_by_row_missingness t threshold).2.rows) t.rows := by
  have hlen : ∀ r ∈ t.rows, r.length ≠ 0 := by
    intro r hr
    rw [hwf r hr]
    intro h0
    exact hc (List.length_eq_zero.mp h0)
  have hmask : ∀ r ∈ t.rows, exclMask r threshold = !keptMask r threshold := by
    intro r hr
    unfold keptMask exclMask
    rw [← decide_not]
    apply decide_eq_decide.mpr
    constructor
    · rintro ⟨_, hlt⟩ ⟨_, hle⟩
      exact absurd hle (not_le.mpr hlt)
    · intro hn
      refine ⟨hlen r hr, ?_⟩
      by_contra hnot
      push_neg at hnot
      exact hn ⟨hlen r hr, hnot⟩
  have hperm : List.Perm ((split_by_row_missingness t threshold).1.rows ++
      (split_by_row_missingness t threshold).2.rows) t.rows := by
    unfold split_by_row_missingness
    have hfe : t.rows.filter (fun r => exclMask r threshold) =
        t.rows.filter (fun r => !keptMask r threshold) :=
      List.filter_congr (fun r hr => by rw [hmask r hr])
    simp only []
    rw [hfe]
    exact List.filter_append_perm _ t.rows
  refine ⟨?_, hmask, hperm⟩
  have hl := hperm.length_eq
  rw [List.length_append] at hl
  exact hl

/-- C1 (amended): for every well-formed table with at least one column,
`split_by_row_missingness` partitions the rows exactly: counts are conserved,
each row passes exactly one of the two filters, and the two outputs together
are a permutation of the input rows. -/
theorem C1_partition_amended (t : Table) (threshold : ℚ) (hwf : t.WF)
    (hc : t.cols ≠ []) :
    (split_by_row_missingness t threshold).1.rows.length +
      (split_by_row_missingness t threshold).2.rows.length = t.rows.length ∧
    (∀ r ∈ t.rows, exclMask r threshold = !keptMask r threshold) ∧
    List.Perm ((split_by_row_missingness t threshold).1.rows ++
      (split_by_row_missingness t threshold).2.rows) t.rows :=
  split_partition_core t threshold hwf hc

/-- C1 (witness): the amended partition theorem at a concrete table. -/
theorem C1_partition_amended_witness :
    ((Table.mk [("A", Dtype.numeric)] [[some (Val.num 1)], [none]]).WF ∧
      Table.mk [("A", Dtype.numeric)] [[some (Val.num 1)], [none]] ≠ emptyTable) ∧
    (split_by_row_missingness ⟨[("A", Dtype.numeric)], [[some (Val.num 1)], [none]]⟩
        (mkRat 3 10)).1.rows.length +
      (split_by_row_missingness ⟨[("A", Dtype.numeric)], [[some (Val.num 1)], [none]]⟩
        (mkRat 3 10)).2.rows.length = 2 :=
  ⟨⟨by decide, by decide⟩,
    (C1_partition_amended ⟨[("A", Dtype.numeric)], [[some (Val.num 1)], [none]]⟩
      (mkRat 3 10) (by decide) (by decide)).1⟩

/-- C2: a row whose missing fraction is exactly the threshold is routed to the
kept partition (and not to the excluded one), and a column whose missing
fraction is exactly the threshold is not dropped: both drop conditions are
strict. -/
theorem C2_threshold_boundary (t : Table) (threshold : ℚ) :
    (∀ r ∈ t.rows, r.length ≠ 0 →
      (rowMissingCount r : ℤ) * (threshold.den : ℤ) = threshold.num * (r.length : ℤ) →
      r ∈ (split_by_row_missingness t threshold).1.rows ∧
        r ∉ (split_by_row_missingness t threshold).2.rows) ∧
    (∀ j, j < t.cols.length → t.rows.length ≠ 0 →
      (colMissingCount t j : ℤ) * (threshold.den : ℤ) =
        threshold.num * (t.rows.length : ℤ) →
      colDropped t j threshold = false ∧
        t.cols.getD j ("", Dtype.numeric) ∈ (drop_high_missing_columns t threshold).1.cols) := by
  constructor
  · intro r hr h0 heq
    have hkept : keptMask r threshold = true := by
      unfold keptMask
      simp only [decide_eq_true_eq]
      exact ⟨h0, le_of_eq heq⟩
    constructor
    · exact List.mem_filter.mpr ⟨hr, hkept⟩
    · intro hmem
      have hexcl := (List.mem_filter.mp hmem).2
      unfold exclMask at hexcl
      simp only [decide_eq_true_eq] at hexcl
      exact absurd hexcl.2 (not_lt.mpr (le_of_eq heq))
  · intro j hj h0 heq
    have hcd : colDropped t j threshold = false := by
      unfold colDropped
      simp only [decide_eq_false_iff_not]
      rintro ⟨_, hlt⟩
      exact absurd hlt (not_lt.mpr (le_of_eq heq))
    refine ⟨hcd, ?_⟩
    have hmask : (dropMask t threshold).getD j true = false := by
      unfold dropMask
      rw [getD_map_lt _ _ _ (by simpa using hj) _ 0,
        List.getD_eq_getElem _ _ (by simpa using hj), List.getElem_range]
      exact hcd
    exact dropMasked_getD_mem _ _ _ _ hmask hj

/-- C2 (witness): boundary behaviour at threshold 1/2 on a concrete table. -/
theorem C2_threshold_boundary_witness :
    [none, some (Val.num 1)] ∈
      (split_by_row_missingness
        ⟨[("A", Dtype.numeric), ("B", Dtype.numeric)],
          [[none, some (Val.num 1)], [some (Val.num 1), some (Val.num 2)]]⟩
        (mkRat 1 2)).1.rows ∧
    colDropped ⟨[("A", Dtype.numeric), ("B", Dtype.numeric)],
        [[none, some (Val.num 1)], [some (Val.num 1), some (Val.num 2)]]⟩
      0 (mkRat 1 2) = false :=
  ⟨((C2_threshold_boundary
      ⟨[("A", Dtype.numeric), ("B", Dtype.numeric)],
        [[none, some (Val.num 1)], [some (Val.num 1), some (Val.num 2)]]⟩
      (mkRat 1 2)).1 [none, some (Val.num 1)] (by decide) (by decide) (by decide)).1,
    ((C2_threshold_boundary
      ⟨[("A", Dtype.numeric), ("B", Dtype.numeric)],
        [[none, some (Val.num 1)], [some (Val.num 1), some (Val.num 2)]]⟩
      (mkRat 1 2)).2 0 (by decide) (by decide) (by decide)).1⟩

/-- C3 (counterexample): called with the out-of-range threshold `2`, both
functions return perfectly ordinary results (nothing dropped, nothing
excluded) instead of reporting any error condition: there is no validation. -/
theorem C3_no_validation_counterexample :
    drop_high_missing_columns ⟨[("A", Dtype.numeric)], [[some (Val.num 1)]]⟩ 2 =
      (⟨[("A", Dtype.numeric)], [[some (Val.num 1)]]⟩, []) ∧
    split_by_row_missingness ⟨[("A", Dtype.numeric)], [[some (Val.num 1)]]⟩ 2 =
      (⟨[("A", Dtype.numeric)], [[some (Val.num 1)]]⟩, ⟨[("A", Dtype.numeric)], []⟩) := by
  decide

/-- C3 (amended): thresholds outside `[0, 1]` are not validated; any threshold
above `1` silently behaves exactly like the in-range threshold `1` in both
`drop_high_missing_columns` and `split_by_row_missingness`. -/
theorem C3_threshold_no_validation (t : Table) (threshold : ℚ) (h : 1 < threshold) :
    drop_high_missing_columns t threshold = drop_high_missing_columns t 1 ∧
    split_by_row_missingness t threshold = split_by_row_missingness t 1 := by
  have hkept : ∀ r : List Cell, keptMask r threshold = keptMask r 1 := by
    intro r
    rw [keptMask_div, keptMask_div]
    apply decide_eq_decide.mpr
    refine and_congr_right fun h0 => ?_
    have hfrac : (rowMissingCount r : ℚ) / (r.length : ℚ) ≤ 1 := by
      rw [div_le_one (by exact_mod_cast Nat.pos_of_ne_zero h0)]
      exact_mod_cast rowMissingCount_le r
    exact ⟨fun _ => hfrac, fun _ => le_trans hfrac (le_of_lt h)⟩
  have hexcl : ∀ r : List Cell, exclMask r threshold = exclMask r 1 := by
    intro r
    rw [exclMask_div, exclMask_div]
    apply decide_eq_decide.mpr
    refine and_congr_right fun h0 => ?_
    have hfrac : (rowMissingCount r : ℚ) / (r.length : ℚ) ≤ 1 := by
      rw [div_le_one (by exact_mod_cast Nat.pos_of_ne_zero h0)]
      exact_mod_cast rowMissingCount_le r
    constructor
    · intro hlt
      exact ((not_lt.mpr hfrac) (lt_trans h hlt)).elim
    · intro hlt
      exact ((not_lt.mpr hfrac) hlt).elim
  have hcd : ∀ j, colDropped t j threshold = colDropped t j 1 := by
    intro j
    rw [colDropped_div, colDropped_div]
    apply decide_eq_decide.mpr
    refine and_congr_right fun h0 => ?_
    have hfrac : (colMissingCount t j : ℚ) / (t.rows.length : ℚ) ≤ 1 := by
      rw [div_le_one (by exact_mod_cast Nat.pos_of_ne_zero h0)]
      exact_mod_cast colMissingCount_le t j
    constructor
    · intro hlt
      exact ((not_lt.mpr hfrac) (lt_trans h hlt)).elim
    · intro hlt
      exact ((not_lt.mpr hfrac) hlt).elim
  constructor
  · have hmask : dropMask t threshold = dropMask t 1 := by
      unfold dropMask
      exact List.map_congr_left fun j _ => hcd j
    unfold drop_high_missing_columns
    rw [hmask]
  · unfold split_by_row_missingness
    rw [List.filter_congr fun r _ => hkept r, List.filter_congr fun r _ => hexcl r]

/-- C3 (witness): the out-of-range threshold `2` agrees with threshold `1`
on a concrete table. -/
theorem C3_threshold_no_validation_witness :
    (1 : ℚ) < 2 ∧
    drop_high_missing_columns ⟨[("A", Dtype.numeric)], [[none], [some (Val.num 1)]]⟩ 2 =
      drop_high_missing_columns ⟨[("A", Dtype.numeric)], [[none], [some (Val.num 1)]]⟩ 1 :=
  ⟨by norm_num,
    (C3_threshold_no_validation ⟨[("A", Dtype.numeric)], [[none], [some (Val.num 1)]]⟩
      2 (by norm_num)).1⟩

/-! ### The wildcard set and column-specific sets (C5) -/

theorem cellMatches_nil (c : Cell) : cellMatches [] c = false := by
  unfold cellMatches
  cases c with
  | none => rfl
  | some v => cases v <;> rfl

theorem repl_nil (c : Cell) : repl [] c = c := by
  unfold repl
  rw [cellMatches_nil]
  rfl

theorem globalCell_eq_repl (m : MVMap) (c : Cell) :
    globalCell m c = repl ((m.lookup "ALL").getD []) c := by
  unfold globalCell
  cases m.lookup "ALL" with
  | none => rw [Option.getD_none, repl_nil]
  | some vs => rfl

theorem foldl_cellStep_id (names : List String) (k : Nat) :
    ∀ (m : MVMap) (c : Cell), (∀ e ∈ m, ¬(e.1 ≠ "ALL" ∧ names.getD k "" = e.1)) →
      List.foldl (cellStep names k) c m = c := by
  intro m
  induction m with
  | nil => intro c _; rfl
  | cons e m ih =>
    intro c hno
    rw [List.foldl_cons,
      show cellStep names k c e = c by unfold cellStep; rw [if_neg (hno e (by simp))]]
    exact ih c fun x hx => hno x (by simp [hx])

theorem foldl_cellStep_single (names : List String) (k : Nat) :
    ∀ (m : MVMap) (col : String) (vs : List ℤ) (c : Cell),
      (m.map Prod.fst).Nodup → (col, vs) ∈ m → col ≠ "ALL" →
      names.getD k "" = col →
      List.foldl (cellStep names k) c m = repl vs c := by
  intro m
  induction m with
  | nil => intro col vs c _ hmem _ _; simp at hmem
  | cons e m ih =>
    intro col vs c hnd hmem hcol hk
    rw [List.foldl_cons]
    rcases List.mem_cons.mp hmem with he | he
    · subst he
      rw [show cellStep names k c (col, vs) = repl vs c by
        unfold cellStep; rw [if_pos ⟨hcol, hk⟩]]
      apply foldl_cellStep_id
      intro x hx hcond
      have hx1 : x.1 = col := by rw [← hcond.2, hk]
      have hnotmem : col ∉ m.map Prod.fst :=
        (List.nodup_cons.mp (by simpa using hnd)).1
      exact hnotmem (hx1 ▸ List.mem_map_of_mem Prod.fst hx)
    · have hnotmem : e.1 ∉ m.map Prod.fst :=
        (List.nodup_cons.mp (by simpa using hnd)).1
      have he1 : e.1 ≠ col := by
        intro he1
        exact hnotmem (he1 ▸ List.mem_map_of_mem Prod.fst he)
      rw [show cellStep names k c e = c by
        unfold cellStep; rw [if_neg (fun hcond => he1 (by rw [← hcond.2, hk]))]]
      exact ih col vs c (List.nodup_cons.mp (by simpa using hnd)).2 he hcol hk

/-- Cell-level description of the encoder. -/
theorem encode_cell (t : Table) (m? : Option MVMap) (i j : Nat)
    (hj : j < t.cols.length) (hij : j < (t.rows.getD i []).length) :
    (encode_missing_values t m?).cell i j =
      encodeCell (m?.getD defaultMap) t.colNames j (t.cell i j) := by
  have hi : i < t.rows.length := by
    by_contra hni
    rw [List.getD_eq_default _ _ (not_lt.mp hni)] at hij
    simp at hij
  rw [encode_NF]
  unfold Table.cell
  rw [show (Table.mk t.cols
      (t.rows.map (encodeRow (m?.getD defaultMap) t.colNames))).rows =
      t.rows.map (encodeRow (m?.getD defaultMap) t.colNames) from rfl,
    getD_map_lt _ _ _ hi _ []]
  exact encodeRow_getD _ _ _ j (by simpa [Table.colNames] using hj) hij

/-- C5: the wildcard set is applied to every column and a column-specific set
extends it: a non-missing value of an explicitly mapped column becomes the
missing marker exactly when it lies in the wildcard set or in that column's
own set. -/
theorem C5_wildcard_extends (t : Table) (m : MVMap) (col : String) (vs : List ℤ)
    (i j : Nat) (v : Val)
    (hnd : (m.map Prod.fst).Nodup) (hmem : (col, vs) ∈ m) (hcol : col ≠ "ALL")
    (hj : j < t.cols.length) (hname : t.colNames.getD j "" = col)
    (hcell : t.cell i j = some v) :
    ((encode_missing_values t (some m)).cell i j = none ↔
      (cellMatches ((m.lookup "ALL").getD []) (some v) = true ∨
        cellMatches vs (some v) = true)) := by
  have hij : j < (t.rows.getD i []).length := by
    by_contra hn
    unfold Table.cell at hcell
    rw [List.getD_eq_default _ _ (not_lt.mp hn)] at hcell
    exact Option.noConfusion hcell
  rw [encode_cell t (some m) i j hj hij, hcell]
  unfold encodeCell
  simp only [Option.getD_some]
  rw [foldl_cellStep_single t.colNames j m col vs _ hnd hmem hcol hname,
    globalCell_eq_repl]
  by_cases hA : cellMatches ((m.lookup "ALL").getD []) (some v) = true
  · rw [show repl ((m.lookup "ALL").getD []) (some v) = none by
      unfold repl; rw [if_pos hA], repl_none]
    simp [hA]
  · rw [show repl ((m.lookup "ALL").getD []) (some v) = some v by
      unfold repl; rw [if_neg hA]]
    by_cases hv : cellMatches vs (some v) = true
    · rw [show repl vs (some v) = none by unfold repl; rw [if_pos hv]]
      simp [hv]
    · rw [show repl vs (some v) = some v by unfold repl; rw [if_neg hv]]
      simp [hA, hv]

/-- C5 (witness): with wildcard set `{-1}` and `B`-specific set `{0}`, the
value `0` in column `B` becomes missing. -/
theorem C5_wildcard_extends_witness :
    (Table.mk [("A", Dtype.numeric), ("B", Dtype.numeric)]
        [[some (Val.num 5), some (Val.num 0)]]).cell 0 1 = some (Val.num 0) ∧
    (encode_missing_values
      ⟨[("A", Dtype.numeric), ("B", Dtype.numeric)],
        [[some (Val.num 5), some (Val.num 0)]]⟩
      (some [("ALL", [-1]), ("B", [0])])).cell 0 1 = none :=
  ⟨by decide,
    (C5_wildcard_extends
      ⟨[("A", Dtype.numeric), ("B", Dtype.numeric)],
        [[some (Val.num 5), some (Val.num 0)]]⟩
      [("ALL", [-1]), ("B", [0])] "B" [0] 0 1 (Val.num 0)
      (by decide) (by decide) (by decide) (by decide) (by decide) (by decide)).mpr
      (Or.inr (by decide))⟩

/-- C7: the pipeline runs encode, column drop, row split (keeping the kept
part), categorical encoding, in that order, and the metadata records the
input shape, the dropped columns, the excluded row count, and the shape of
the final table. -/
theorem C7_pipeline_order (t : Table) (m? : Option MVMap)
    (cThr rThr : ℚ) (bc dc : Option (List String)) :
    (clean_demographic_data t m? cThr rThr bc dc).1 =
      convert_categorical
        (split_by_row_missingness
          (drop_high_missing_columns (encode_missing_values t m?) cThr).1 rThr).1
        bc dc ∧
    (clean_demographic_data t m? cThr rThr bc dc).2.original_shape = t.shape ∧
    (clean_demographic_data t m? cThr rThr bc dc).2.dropped_columns =
      (drop_high_missing_columns (encode_missing_values t m?) cThr).2 ∧
    (clean_demographic_data t m? cThr rThr bc dc).2.high_missing_rows_count =
      (split_by_row_missingness
        (drop_high_missing_columns (encode_missing_values t m?) cThr).1 rThr).2.rows.length ∧
    (clean_demographic_data t m? cThr rThr bc dc).2.cleaned_shape =
      (clean_demographic_data t m? cThr rThr bc dc).1.shape :=
  ⟨rfl, rfl, rfl, rfl, rfl⟩

/-! ### Non-destructiveness in the heap model (C8) -/

theorem getD_append_lt {α : Type} (l₁ l₂ : List α) (n : Nat) (d : α)
    (h : n < l₁.length) : (l₁ ++ l₂).getD n d = l₁.getD n d := by
  rw [List.getD_eq_getElem _ _ (by rw [List.length_append]; omega),
    List.getElem_append_left h, List.getD_eq_getElem _ _ h]

theorem getD_set_ne {α : Type} (a d : α) :
    ∀ (l : List α) (j i : Nat), i ≠ j → (l.set j a).getD i d = l.getD i d := by
  intro l
  induction l with
  | nil => intro j i _; simp
  | cons x l ih =>
    intro j i hij
    cases j with
    | zero =>
      cases i with
      | zero => exact absurd rfl hij
      | succ i => simp [List.set]
    | succ j =>
      cases i with
      | zero => simp [List.set]
      | succ i =>
        simp only [List.set, List.getD_cons_succ]
        exact ih j i (fun hh => hij (by rw [hh]))

/-- C8: in the heap model, `encode_missing_values` and `convert_categorical`
leave the input frame unchanged and return a freshly allocated frame, never
the input one. -/
theorem C8_nondestructive (st : Store) (i : Nat)
    (m? : Option MVMap) (bc dc : Option (List String)) (h : i < st.length) :
    ((encode_missing_values_heap st i m?).1.getD i emptyTable = st.getD i emptyTable ∧
      (encode_missing_values_heap st i m?).2 ≠ i) ∧
    ((convert_categorical_heap st i bc dc).1.getD i emptyTable = st.getD i emptyTable ∧
      (convert_categorical_heap st i bc dc).2 ≠ i) := by
  have hne : st.length ≠ i := (Nat.ne_of_lt h).symm
  have hP1 : (st ++ [st.getD i emptyTable]).getD i emptyTable = st.getD i emptyTable ∧
      (st ++ [st.getD i emptyTable]).length = st.length + 1 :=
    ⟨getD_append_lt _ _ _ _ h, by simp⟩
  have hPset : ∀ (s : Store) (x : Table),
      (s.getD i emptyTable = st.getD i emptyTable ∧ s.length = st.length + 1) →
      ((s.set st.length x).getD i emptyTable = st.getD i emptyTable ∧
        (s.set st.length x).length = st.length + 1) := by
    intro s x hs
    refine ⟨?_, by rw [List.length_set]; exact hs.2⟩
    rw [getD_set_ne _ _ _ _ _ (fun hij => hne hij.symm)]
    exact hs.1
  have hPglobal : ∀ (m : MVMap) (s : Store),
      (s.getD i emptyTable = st.getD i emptyTable ∧ s.length = st.length + 1) →
      ((globalHeapStage st.length m s).getD i emptyTable = st.getD i emptyTable ∧
        (globalHeapStage st.length m s).length = st.length + 1) := by
    intro m s hs
    unfold globalHeapStage
    cases m.lookup "ALL" with
    | none => exact hs
    | some vs => exact hPset s _ hs
  have hPencode : ∀ (s : Store) (e : String × List ℤ),
      (s.getD i emptyTable = st.getD i emptyTable ∧ s.length = st.length + 1) →
      ((encodeHeapStep st.length s e).getD i emptyTable = st.getD i emptyTable ∧
        (encodeHeapStep st.length s e).length = st.length + 1) := by
    intro s e hs
    unfold encodeHeapStep
    by_cases hall : e.1 = "ALL"
    · simpa [hall] using hs
    · by_cases hmem : e.1 ∈ (s.getD st.length emptyTable).colNames
      · rw [if_neg hall, if_pos hmem]
        exact hPset s _ hs
      · rw [if_neg hall, if_neg hmem]
        exact hs
  have hPdrop : ∀ (s : Store),
      (s.getD i emptyTable = st.getD i emptyTable ∧ s.length = st.length + 1) →
      ((dropHeapStage st.length dc s).getD i emptyTable = st.getD i emptyTable ∧
        (dropHeapStage st.length dc s).length = st.length + 1) := by
    intro s hs
    unfold dropHeapStage
    match dc with
    | none => exact hs
    | some [] => exact hs
    | some (d :: ds) => exact hPset s _ hs
  have hPbinary : ∀ (s : Store),
      (s.getD i emptyTable = st.getD i emptyTable ∧ s.length = st.length + 1) →
      ((binaryHeapStage st.length bc s).getD i emptyTable = st.getD i emptyTable ∧
        (binaryHeapStage st.length bc s).length = st.length + 1) := by
    intro s hs
    unfold binaryHeapStage
    match bc with
    | none => exact hs
    | some [] => exact hs
    | some (b :: bs) =>
      refine foldl_preserves (binaryHeapStep st.length)
        (fun s : Store =>
          s.getD i emptyTable = st.getD i emptyTable ∧ s.length = st.length + 1)
        ?_ (b :: bs) s hs
      intro s' col hs'
      unfold binaryHeapStep
      by_cases hmem : col ∈ (s'.getD st.length emptyTable).colNames
      · rw [if_pos hmem]
        exact hPset s' _ hs'
      · rw [if_neg hmem]
        exact hs'
  constructor
  · simp only [encode_missing_values_heap]
    have hP3 := foldl_preserves (encodeHeapStep st.length)
      (fun s : Store =>
        s.getD i emptyTable = st.getD i emptyTable ∧ s.length = st.length + 1)
      hPencode (m?.getD defaultMap) _ (hPglobal (m?.getD defaultMap) _ hP1)
    exact ⟨hP3.1, fun hji => hne hji⟩
  · simp only [convert_categorical_heap]
    have hfin := hPbinary _ (hPdrop _ hP1)
    constructor
    · rw [getD_append_lt _ _ _ _ (by rw [hfin.2]; omega)]
      exact hfin.1
    · rw [hfin.2]
      omega

/-- C8 (witness): on a one-frame store, both heap operations leave frame `0`
untouched and return a different frame index. -/
theorem C8_nondestructive_witness :
    (0 < ([⟨[("A", Dtype.numeric)], [[some (Val.num 1)]]⟩] : Store).length) ∧
    (encode_missing_values_heap
        [⟨[("A", Dtype.numeric)], [[some (Val.num 1)]]⟩] 0 none).1.getD 0 emptyTable =
      ([⟨[("A", Dtype.numeric)], [[some (Val.num 1)]]⟩] : Store).getD 0 emptyTable ∧
    (convert_categorical_heap
        [⟨[("A", Dtype.numeric)], [[some (Val.num 1)]]⟩] 0 none none).2 ≠ 0 :=
  ⟨by decide,
    ((C8_nondestructive [⟨[("A", Dtype.numeric)], [[some (Val.num 1)]]⟩]
      0 none none none (by decide)).1).1,
    ((C8_nondestructive [⟨[("A", Dtype.numeric)], [[some (Val.num 1)]]⟩]
      0 none none none (by decide)).2).2⟩

/-! ### Unknown configuration names are ignored (C9) -/

theorem dropMasked_allFalse {α : Type} :
    ∀ (bs : List Bool), (∀ b ∈ bs, b = false) →
      ∀ (xs : List α), dropMasked bs xs = xs := by
  intro bs
  induction bs with
  | nil => intro _ xs; cases xs <;> rfl
  | cons b bs ih =>
    intro hb xs
    have hb0 : b = false := hb b (by simp)
    subst hb0
    cases xs with
    | nil => rfl
    | cons x xs => simp [dropMasked, ih (fun b' hb' => hb b' (by simp [hb']))]

theorem dropByNames_nil (t : Table) : dropByNames t [] = t := by
  simp only [dropByNames]
  have hmask : ∀ b ∈ t.cols.map (fun c => decide (c.1 ∈ ([] : List String))),
      b = false := by
    intro b hb
    rcases List.mem_map.mp hb with ⟨c, _, hc⟩
    simpa using hc.symm
  rw [dropMasked_allFalse _ hmask,
    List.map_congr_left (fun r _ => dropMasked_allFalse _ hmask r)]
  simp

theorem dropMasked_sublist {α : Type} :
    ∀ (bs : List Bool) (xs : List α), List.Sublist (dropMasked bs xs) xs := by
  intro bs
  induction bs with
  | nil => intro xs; cases xs <;> simp [dropMasked]
  | cons b bs ih =>
    intro xs
    cases xs with
    | nil => simp [dropMasked]
    | cons x xs =>
      cases b
      · exact List.Sublist.cons₂ x (ih xs)
      · exact List.Sublist.cons x (ih xs)

theorem dropByNames_colNames_sub (t : Table) (lst : List String) :
    ∀ x, x ∈ (dropByNames t lst).colNames → x ∈ t.colNames := by
  intro x hx
  unfold dropByNames Table.colNames at *
  rcases List.mem_map.mp hx with ⟨c, hc, rfl⟩
  exact List.mem_map_of_mem _ ((dropMasked_sublist _ _).subset hc)

theorem binaryStep_colNames (acc : Table) (col : String) :
    (binaryStep acc col).colNames = acc.colNames := by
  unfold binaryStep
  by_cases hmem : col ∈ acc.colNames
  · rw [if_pos hmem]
    unfold mapBinaryCol Table.colNames
    rw [List.map_map]
    exact List.map_congr_left fun c _ => by
      by_cases h : c.1 = col <;> simp [h]
  · rw [if_neg hmem]

theorem foldl_binaryStep_filter (N : List String) :
    ∀ (l : List String) (acc : Table), (∀ x, x ∈ acc.colNames → x ∈ N) →
      (l.filter (fun c => decide (c ∈ N))).foldl binaryStep acc =
        l.foldl binaryStep acc := by
  intro l
  induction l with
  | nil => intro acc _; rfl
  | cons x l ih =>
    intro acc hsub
    by_cases hx : x ∈ N
    · rw [List.filter_cons_of_pos (by simpa using hx), List.foldl_cons,
        List.foldl_cons]
      apply ih
      intro y hy
      rw [binaryStep_colNames] at hy
      exact hsub y hy
    · rw [List.filter_cons_of_neg (by simpa using hx), List.foldl_cons,
        show binaryStep acc x = acc by
          unfold binaryStep; rw [if_neg (fun hmem => hx (hsub x hmem))]]
      exact ih acc hsub

theorem encode_filter_names (t : Table) (m : MVMap) :
    encode_missing_values t (some m) =
      encode_missing_values t
        (some (m.filter (fun e => decide (e.1 = "ALL" ∨ e.1 ∈ t.colNames)))) := by
  rw [encode_NF, encode_NF]
  simp only [Option.getD_some]
  refine congrArg (Table.mk t.cols) (List.map_congr_left fun r _ => ?_)
  unfold encodeRow
  have hg : globalRow (m.filter (fun e => decide (e.1 = "ALL" ∨ e.1 ∈ t.colNames))) r =
      globalRow m r := by
    unfold globalRow
    rw [lookup_filter_keep "ALL" _ m (fun e _ hek => by simp [hek])]
  rw [hg]
  refine (foldl_filter_id _ (colStep t.colNames) ?_ m (globalRow m r)).symm
  intro b a hpa
  simp only [decide_eq_false_iff_not] at hpa
  push_neg at hpa
  unfold colStep
  rw [if_neg hpa.1, if_neg hpa.2]

theorem dropStage_filter (t : Table) (dc : List String) :
    dropStage t (some dc) =
      dropStage t (some (dc.filter (fun c => decide (c ∈ t.colNames)))) := by
  cases dc with
  | nil => rfl
  | cons d ds =>
    cases hf : (d :: ds).filter (fun c => decide (c ∈ t.colNames)) with
    | nil =>
      simp only [dropStage, hf]
      exact dropByNames_nil t
    | cons x xs =>
      simp only [dropStage, hf]
      have hxx : (x :: xs).filter (fun c => decide (c ∈ t.colNames)) =
          (d :: ds).filter (fun c => decide (c ∈ t.colNames)) := by
        rw [← hf, List.filter_filter]
        exact List.filter_congr fun a _ => Bool.and_self _
      rw [hxx, hf]

theorem binaryStage_filter (N : List String) (bc : List String) (s : Table)
    (hsub : ∀ x, x ∈ s.colNames → x ∈ N) :
    binaryStage (some bc) s =
      binaryStage (some (bc.filter (fun c => decide (c ∈ N)))) s := by
  cases bc with
  | nil => rfl
  | cons b bs =>
    cases hf : (b :: bs).filter (fun c => decide (c ∈ N)) with
    | nil =>
      simp only [binaryStage, hf]
      rw [← foldl_binaryStep_filter N (b :: bs) _ hsub, hf, List.foldl_nil]
    | cons x xs =>
      simp only [binaryStage, hf]
      rw [← hf, foldl_binaryStep_filter N (b :: bs) _ hsub]

theorem dropStage_colNames_sub (t : Table) (dc : Option (List String)) :
    ∀ x, x ∈ (dropStage t dc).colNames → x ∈ t.colNames := by
  match dc with
  | none => exact fun x hx => hx
  | some [] => exact fun x hx => hx
  | some (d :: ds) => exact dropByNames_colNames_sub t _

theorem convert_filter_drop (t : Table) (bc : Option (List String)) (dc : List String) :
    convert_categorical t bc (some dc) =
      convert_categorical t bc
        (some (dc.filter (fun c => decide (c ∈ t.colNames)))) := by
  unfold convert_categorical
  rw [dropStage_filter]

theorem convert_filter_binary (t : Table) (bc : List String) (dc : Option (List String)) :
    convert_categorical t (some bc) dc =
      convert_categorical t
        (some (bc.filter (fun c => decide (c ∈ t.colNames)))) dc := by
  unfold convert_categorical
  rw [binaryStage_filter t.colNames bc _ (dropStage_colNames_sub t dc)]

/-- C9: configuration names that match no column are silently ignored: the
output of `encode_missing_values` is unchanged when the missing-value map is
restricted to its wildcard and existing-column entries, and the output of
`convert_categorical` is unchanged when `drop_cols` or `binary_cols` is
restricted to names of existing columns. -/
theorem C9_unknown_names_ignored (t : Table) (m : MVMap) (bc dc : List String) :
    encode_missing_values t (some m) =
      encode_missing_values t
        (some (m.filter (fun e => decide (e.1 = "ALL" ∨ e.1 ∈ t.colNames)))) ∧
    convert_categorical t (some bc) (some dc) =
      convert_categorical t (some bc)
        (some (dc.filter (fun c => decide (c ∈ t.colNames)))) ∧
    convert_categorical t (some bc) (some dc) =
      convert_categorical t
        (some (bc.filter (fun c => decide (c ∈ t.colNames)))) (some dc) :=
  ⟨encode_filter_names t m, convert_filter_drop t (some bc) dc,
    convert_filter_binary t bc (some dc)⟩

/-! ### Row-count bookkeeping of the pipeline (C10) -/

theorem encode_cols (t : Table) (m? : Option MVMap) :
    (encode_missing_values t m?).cols = t.cols := by
  rw [encode_NF]

theorem encode_rows_length (t : Table) (m? : Option MVMap) :
    (encode_missing_values t m?).rows.length = t.rows.length := by
  rw [encode_NF]
  simp

theorem encode_WF (t : Table) (m? : Option MVMap) (hwf : t.WF) :
    (encode_missing_values t m?).WF := by
  rw [encode_NF]
  intro r hr
  rcases List.mem_map.mp hr with ⟨r0, hr0, rfl⟩
  rw [encodeRow_length]
  exact hwf r0 hr0

theorem dropMasked_length_congr {α β : Type} :
    ∀ (bs : List Bool) (xs : List α) (ys : List β), xs.length = ys.length →
      (dropMasked bs xs).length = (dropMasked bs ys).length := by
  intro bs
  induction bs with
  | nil =>
    intro xs ys h
    have e1 : dropMasked ([] : List Bool) xs = xs := by cases xs <;> rfl
    have e2 : dropMasked ([] : List Bool) ys = ys := by cases ys <;> rfl
    rw [e1, e2, h]
  | cons b bs ih =>
    intro xs ys h
    cases xs with
    | nil =>
      cases ys with
      | nil =>
        have e1 : dropMasked (b :: bs) ([] : List α) = [] := by cases b <;> rfl
        have e2 : dropMasked (b :: bs) ([] : List β) = [] := by cases b <;> rfl
        rw [e1, e2]
        rfl
      | cons y ys => simp at h
    | cons x xs =>
      cases ys with
      | nil => simp at h
      | cons y ys =>
        have h' : xs.length = ys.length := by simpa using h
        cases b
        · simp only [dropMasked, List.length_cons]
          rw [ih xs ys h']
        · simp only [dropMasked]
          exact ih xs ys h'

theorem drop_rows_length (t : Table) (thr : ℚ) :
    (drop_high_missing_columns t thr).1.rows.length = t.rows.length := by
  simp [drop_high_missing_columns]

theorem drop_WF (t : Table) (thr : ℚ) (hwf : t.WF) :
    (drop_high_missing_columns t thr).1.WF := by
  intro r hr
  simp only [drop_high_missing_columns] at hr ⊢
  rcases List.mem_map.mp hr with ⟨r0, hr0, rfl⟩
  exact dropMasked_length_congr _ _ _ (hwf r0 hr0)

theorem binaryStep_rows_length (acc : Table) (col : String) :
    (binaryStep acc col).rows.length = acc.rows.length := by
  unfold binaryStep
  by_cases hmem : col ∈ acc.colNames
  · rw [if_pos hmem]
    simp [mapBinaryCol]
  · rw [if_neg hmem]

theorem binaryStage_rows_length (bc : Option (List String)) (s : Table) :
    (binaryStage bc s).rows.length = s.rows.length := by
  unfold binaryStage
  match bc with
  | none => rfl
  | some [] => rfl
  | some (b :: bs) =>
    exact foldl_preserves binaryStep (fun u => u.rows.length = s.rows.length)
      (fun u col hu => by
        show (binaryStep u col).rows.length = s.rows.length
        rw [binaryStep_rows_length]
        exact hu) (b :: bs) s rfl

theorem dropStage_rows_length (t : Table) (dc : Option (List String)) :
    (dropStage t dc).rows.length = t.rows.length := by
  unfold dropStage
  match dc with
  | none => rfl
  | some [] => rfl
  | some (d :: ds) => simp [dropByNames]

theorem get_dummies_rows_length (t : Table) :
    (get_dummies t).rows.length = t.rows.length := by
  simp [get_dummies]

theorem convert_rows_length (t : Table) (bc dc : Option (List String)) :
    (convert_categorical t bc dc).rows.length = t.rows.length := by
  unfold convert_categorical
  rw [get_dummies_rows_length, binaryStage_rows_length, dropStage_rows_length]

/-- C10: whenever at least one column survives the sparse-column drop, the
metadata of `clean_demographic_data` satisfies
`original rows = cleaned rows + high-missing rows`: the categorical step never
changes the row count, and the row split is an exact partition. -/
theorem C10_rowcount_invariant (t : Table) (m? : Option MVMap)
    (cThr rThr : ℚ) (bc dc : Option (List String)) (hwf : t.WF)
    (hcols : (drop_high_missing_columns (encode_missing_values t m?) cThr).1.cols ≠ []) :
    (clean_demographic_data t m? cThr rThr bc dc).2.original_shape.1 =
      (clean_demographic_data t m? cThr rThr bc dc).2.cleaned_shape.1 +
        (clean_demographic_data t m? cThr rThr bc dc).2.high_missing_rows_count := by
  show t.rows.length =
    (convert_categorical
      (split_by_row_missingness
        (drop_high_missing_columns (encode_missing_values t m?) cThr).1 rThr).1
      bc dc).rows.length +
    (split_by_row_missingness
      (drop_high_missing_columns (encode_missing_values t m?) cThr).1 rThr).2.rows.length
  have hwf2 : (drop_high_missing_columns (encode_missing_values t m?) cThr).1.WF :=
    drop_WF _ _ (encode_WF t m? hwf)
  have hsplit := (split_partition_core
    (drop_high_missing_columns (encode_missing_values t m?) cThr).1 rThr hwf2 hcols).1
  rw [convert_rows_length, hsplit, drop_rows_length, encode_rows_length]

/-- C10 (witness): the bookkeeping identity on a concrete run. -/
theorem C10_rowcount_invariant_witness :
    ((Table.mk [("A", Dtype.numeric)] [[some (Val.num 1)], [none]]).WF ∧
      (drop_high_missing_columns
        (encode_missing_values ⟨[("A", Dtype.numeric)], [[some (Val.num 1)], [none]]⟩ none)
        (mkRat 1 2)).1.cols ≠ []) ∧
    (clean_demographic_data ⟨[("A", Dtype.numeric)], [[some (Val.num 1)], [none]]⟩
        none (mkRat 1 2) (mkRat 1 2) none none).2.original_shape.1 =
      (clean_demographic_data ⟨[("A", Dtype.numeric)], [[some (Val.num 1)], [none]]⟩
        none (mkRat 1 2) (mkRat 1 2) none none).2.cleaned_shape.1 +
        (clean_demographic_data ⟨[("A", Dtype.numeric)], [[some (Val.num 1)], [none]]⟩
          none (mkRat 1 2) (mkRat 1 2) none none).2.high_missing_rows_count :=
  ⟨⟨by decide, by decide⟩,
    C10_rowcount_invariant ⟨[("A", Dtype.numeric)], [[some (Val.num 1)], [none]]⟩
      none (mkRat 1 2) (mkRat 1 2) none none (by decide) (by decide)⟩

/-! ### Column extraction through the categorical encoder (C6) -/

theorem getColAux_mem :
    ∀ (cols : List (String × Dtype)) (rows : List (List Cell)) (name : String)
      (v : List Cell), getColAux cols rows name = some v → name ∈ cols.map Prod.fst := by
  intro cols
  induction cols with
  | nil => intro rows name v h; exact Option.noConfusion h
  | cons c cs ih =>
    intro rows name v h
    unfold getColAux at h
    by_cases hc : c.1 = name
    · simp [hc]
    · rw [if_neg hc] at h
      simp only [List.map_cons, List.mem_cons]
      exact Or.inr (ih _ name v h)

theorem getCol_mem (t : Table) (name : String) (cells : List Cell)
    (h : t.getCol name = some cells) : name ∈ t.colNames :=
  getColAux_mem t.cols t.rows name cells h

theorem getColAux_names_congr :
    ∀ (cols cols2 : List (String × Dtype)) (rows : List (List Cell)) (name : String),
      cols.map Prod.fst = cols2.map Prod.fst →
      getColAux cols rows name = getColAux cols2 rows name := by
  intro cols
  induction cols with
  | nil =>
    intro cols2 rows name h
    cases cols2 with
    | nil => rfl
    | cons c2 cs2 => simp at h
  | cons c cs ih =>
    intro cols2 rows name h
    cases cols2 with
    | nil => simp at h
    | cons c2 cs2 =>
      simp only [List.map_cons, List.cons.injEq] at h
      unfold getColAux
      rw [h.1]
      by_cases hc : c2.1 = name
      · rw [if_pos hc, if_pos hc]
      · rw [if_neg hc, if_neg hc]
        exact ih cs2 _ name h.2

theorem drop_one_append {α : Type} (l₁ l₂ : List α) (h : l₁ ≠ []) :
    (l₁ ++ l₂).drop 1 = l₁.drop 1 ++ l₂ := by
  cases l₁ with
  | nil => exact absurd rfl h
  | cons x xs => rfl

theorem getColAux_cons_pos (c : String × Dtype) (cs : List (String × Dtype))
    (rows : List (List Cell)) (name : String) (hc : c.1 = name) :
    getColAux (c :: cs) rows name = some (rows.map (fun r => r.getD 0 none)) := by
  simp only [getColAux]
  rw [if_pos hc]

theorem getColAux_cons_neg (c : String × Dtype) (cs : List (String × Dtype))
    (rows : List (List Cell)) (name : String) (hc : ¬ c.1 = name) :
    getColAux (c :: cs) rows name =
      getColAux cs (rows.map (fun r => r.drop 1)) name := by
  simp only [getColAux]
  rw [if_neg hc]

theorem getColAux_dropMasked :
    ∀ (cols : List (String × Dtype)) (mask : List Bool) (rows : List (List Cell))
      (name : String),
      mask.length = cols.length → (∀ r ∈ rows, r.length = cols.length) →
      keptCol mask cols name = true →
      getColAux (dropMasked mask cols) (rows.map (fun r => dropMasked mask r)) name =
        getColAux cols rows name := by
  intro cols
  induction cols with
  | nil =>
    intro mask rows name _ _ hkept
    cases mask <;> simp [keptCol] at hkept
  | cons c cs ih =>
    intro mask rows name hlen hwf hkept
    cases mask with
    | nil => simp at hlen
    | cons b bs =>
      have hlen' : bs.length = cs.length := by simpa using hlen
      have hrows : ∀ r ∈ rows, ∃ x xs, r = x :: xs := by
        intro r hr
        cases r with
        | nil => simpa using (hwf [] hr).symm
        | cons x xs => exact ⟨x, xs, rfl⟩
      have hwf' : ∀ r ∈ rows.map (fun r => r.drop 1), r.length = cs.length := by
        intro r hr
        rcases List.mem_map.mp hr with ⟨r0, hr0, rfl⟩
        obtain ⟨x, xs, rfl⟩ := hrows r0 hr0
        simpa using hwf _ hr0
      by_cases hc : c.1 = name
      · have hb : b = false := by
          unfold keptCol at hkept
          rw [if_pos hc] at hkept
          simpa using hkept
        subst hb
        have hdm : dropMasked (false :: bs) (c :: cs) = c :: dropMasked bs cs := rfl
        rw [hdm, getColAux_cons_pos _ _ _ _ hc, getColAux_cons_pos _ _ _ _ hc,
          List.map_map]
        refine congrArg some (List.map_congr_left ?_)
        intro r hr
        obtain ⟨x, xs, rfl⟩ := hrows r hr
        rfl
      · unfold keptCol at hkept
        rw [if_neg hc] at hkept
        rw [getColAux_cons_neg c cs rows name hc]
        cases b
        · have hdm : dropMasked (false :: bs) (c :: cs) = c :: dropMasked bs cs := rfl
          rw [hdm, getColAux_cons_neg c (dropMasked bs cs) _ name hc, List.map_map]
          have hmaps :
              List.map ((fun r => List.drop 1 r) ∘ fun r => dropMasked (false :: bs) r)
                rows =
              List.map (fun r => dropMasked bs r)
                (List.map (fun r => List.drop 1 r) rows) := by
            rw [List.map_map]
            refine List.map_congr_left ?_
            intro r hr
            obtain ⟨x, xs, rfl⟩ := hrows r hr
            rfl
          rw [hmaps]
          exact ih bs _ name hlen' hwf' hkept
        · have hdm : dropMasked (true :: bs) (c :: cs) = dropMasked bs cs := rfl
          rw [hdm]
          have hmaps : List.map (fun r => dropMasked (true :: bs) r) rows =
              List.map (fun r => dropMasked bs r)
                (List.map (fun r => List.drop 1 r) rows) := by
            rw [List.map_map]
            refine List.map_congr_left ?_
            intro r hr
            obtain ⟨x, xs, rfl⟩ := hrows r hr
            rfl
          rw [hmaps]
          exact ih bs _ name hlen' hwf' hkept

theorem getColAux_append :
    ∀ (cols1 : List (String × Dtype)) (cols2 : List (String × Dtype))
      (rows : List (List Cell)) (F G : List Cell → List Cell) (name : String),
      (∀ r ∈ rows, (F r).length = cols1.length) → name ∈ cols1.map Prod.fst →
      getColAux (cols1 ++ cols2) (rows.map (fun r => F r ++ G r)) name =
        getColAux cols1 (rows.map F) name := by
  intro cols1
  induction cols1 with
  | nil => intro cols2 rows F G name _ hmem; simp at hmem
  | cons c cs ih =>
    intro cols2 rows F G name hlen hmem
    have hFne : ∀ r ∈ rows, F r ≠ [] := by
      intro r hr hFr
      have hl := hlen r hr
      rw [hFr] at hl
      simp at hl
    by_cases hc : c.1 = name
    · rw [List.cons_append, getColAux_cons_pos _ _ _ _ hc,
        getColAux_cons_pos _ _ _ _ hc, List.map_map, List.map_map]
      refine congrArg some (List.map_congr_left ?_)
      intro r hr
      show (F r ++ G r).getD 0 none = (F r).getD 0 none
      refine getD_append_lt _ _ _ _ ?_
      have hl := hlen r hr
      rw [List.length_cons] at hl
      omega
    · have hmem' : name ∈ cs.map Prod.fst := by
        rw [List.map_cons] at hmem
        rcases List.mem_cons.mp hmem with h1 | h1
        · exact absurd h1.symm hc
        · exact h1
      rw [List.cons_append, getColAux_cons_neg _ _ _ _ hc,
        getColAux_cons_neg _ _ _ _ hc, List.map_map, List.map_map]
      have hL : List.map ((fun r => List.drop 1 r) ∘ fun r => F r ++ G r) rows =
          List.map (fun r => List.drop 1 (F r) ++ G r) rows :=
        List.map_congr_left (fun r hr => drop_one_append _ _ (hFne r hr))
      have hR : List.map ((fun r => List.drop 1 r) ∘ F) rows =
          List.map (fun r => List.drop 1 (F r)) rows :=
        List.map_congr_left (fun r _ => rfl)
      rw [hL, hR]
      exact ih cols2 rows (fun r => (F r).drop 1) G name
        (by
          intro r hr
          show ((F r).drop 1).length = cs.length
          rw [List.length_drop, hlen r hr, List.length_cons]
          omega) hmem'

theorem find?_append_left {α : Type} (l₁ l₂ : List α) (p : α → Bool) (x : α)
    (h : l₁.find? p = some x) : (l₁ ++ l₂).find? p = some x := by
  induction l₁ with
  | nil => exact Option.noConfusion h
  | cons a l ih =>
    by_cases ha : p a = true
    · rw [List.find?_cons_of_pos _ ha] at h
      rw [List.cons_append, List.find?_cons_of_pos _ ha]
      exact h
    · rw [List.find?_cons_of_neg _ (by simpa using ha)] at h
      rw [List.cons_append, List.find?_cons_of_neg _ (by simpa using ha)]
      exact ih h

theorem find?_dropMasked (name : String) :
    ∀ (cols : List (String × Dtype)) (mask : List Bool),
      mask.length = cols.length → keptCol mask cols name = true →
      (dropMasked mask cols).find? (fun c => c.1 = name) =
        cols.find? (fun c => c.1 = name) := by
  intro cols
  induction cols with
  | nil =>
    intro mask _ hkept
    cases mask <;> simp [keptCol] at hkept
  | cons c cs ih =>
    intro mask hlen hkept
    cases mask with
    | nil => simp at hlen
    | cons b bs =>
      have hlen' : bs.length = cs.length := by simpa using hlen
      by_cases hc : c.1 = name
      · have hb : b = false := by
          unfold keptCol at hkept
          rw [if_pos hc] at hkept
          simpa using hkept
        subst hb
        have hdm : dropMasked (false :: bs) (c :: cs) = c :: dropMasked bs cs := rfl
        rw [hdm, List.find?_cons_of_pos _ (by simpa using hc),
          List.find?_cons_of_pos _ (by simpa using hc)]
      · unfold keptCol at hkept
        rw [if_neg hc] at hkept
        cases b
        · have hdm : dropMasked (false :: bs) (c :: cs) = c :: dropMasked bs cs := rfl
          rw [hdm, List.find?_cons_of_neg _ (by simpa using hc),
            List.find?_cons_of_neg _ (by simpa using hc)]
          exact ih bs hlen' hkept
        · have hdm : dropMasked (true :: bs) (c :: cs) = dropMasked bs cs := rfl
          rw [hdm, List.find?_cons_of_neg _ (by simpa using hc)]
          exact ih bs hlen' hkept

theorem keptCol_mem (name : String) :
    ∀ (cols : List (String × Dtype)) (mask : List Bool),
      keptCol mask cols name = true → name ∈ (dropMasked mask cols).map Prod.fst := by
  intro cols
  induction cols with
  | nil =>
    intro mask hkept
    cases mask <;> simp [keptCol] at hkept
  | cons c cs ih =>
    intro mask hkept
    cases mask with
    | nil => simp [keptCol] at hkept
    | cons b bs =>
      by_cases hc : c.1 = name
      · have hb : b = false := by
          unfold keptCol at hkept
          rw [if_pos hc] at hkept
          simpa using hkept
        subst hb
        have hdm : dropMasked (false :: bs) (c :: cs) = c :: dropMasked bs cs := rfl
        rw [hdm]
        simp [hc]
      · unfold keptCol at hkept
        rw [if_neg hc] at hkept
        cases b
        · have hdm : dropMasked (false :: bs) (c :: cs) = c :: dropMasked bs cs := rfl
          rw [hdm]
          simp only [List.map_cons, List.mem_cons]
          exact Or.inr (ih bs hkept)
        · have hdm : dropMasked (true :: bs) (c :: cs) = dropMasked bs cs := rfl
          rw [hdm]
          exact ih bs hkept

theorem keptCol_objMask_aux (name : String) :
    ∀ (cols : List (String × Dtype)),
      ((cols.find? (fun c => c.1 = name)).map (fun c => c.2)) = some Dtype.numeric →
      keptCol (cols.map (fun c => decide (c.2 = Dtype.obj))) cols name = true := by
  intro cols
  induction cols with
  | nil => intro hdt; simp at hdt
  | cons c cs ih =>
    intro hdt
    by_cases hc : c.1 = name
    · rw [List.find?_cons_of_pos _ (by simpa using hc)] at hdt
      have hc2 : c.2 = Dtype.numeric := by simpa using hdt
      show keptCol (decide (c.2 = Dtype.obj) :: cs.map (fun c => decide (c.2 = Dtype.obj)))
        (c :: cs) name = true
      simp only [keptCol]
      rw [if_pos hc, hc2]
      rfl
    · rw [List.find?_cons_of_neg _ (by simpa using hc)] at hdt
      show keptCol (decide (c.2 = Dtype.obj) :: cs.map (fun c => decide (c.2 = Dtype.obj)))
        (c :: cs) name = true
      simp only [keptCol]
      rw [if_neg hc]
      exact ih hdt

theorem keptCol_objMask (t : Table) (name : String)
    (hdt : t.getDtype name = some Dtype.numeric) :
    keptCol (objMask t) t.cols name = true :=
  keptCol_objMask_aux name t.cols hdt

theorem keptCol_dropNames (name : String) (dcl : List String) :
    ∀ (cols : List (String × Dtype)), name ∈ cols.map Prod.fst → name ∉ dcl →
      keptCol (cols.map (fun c => decide (c.1 ∈ dcl))) cols name = true := by
  intro cols
  induction cols with
  | nil => intro hmem _; simp at hmem
  | cons c cs ih =>
    intro hmem hnot
    by_cases hc : c.1 = name
    · show keptCol (decide (c.1 ∈ dcl) :: cs.map (fun c => decide (c.1 ∈ dcl)))
        (c :: cs) name = true
      simp only [keptCol]
      rw [if_pos hc, hc]
      simp [hnot]
    · show keptCol (decide (c.1 ∈ dcl) :: cs.map (fun c => decide (c.1 ∈ dcl)))
        (c :: cs) name = true
      simp only [keptCol]
      rw [if_neg hc]
      refine ih ?_ hnot
      rw [List.map_cons] at hmem
      rcases List.mem_cons.mp hmem with h1 | h1
      · exact absurd h1.symm hc
      · exact h1

theorem getColAux_applyNamed_self :
    ∀ (cols : List (String × Dtype)) (rows : List (List Cell)) (col : String)
      (f : Cell → Cell), f none = none →
      getColAux cols (rows.map (applyNamed (cols.map Prod.fst) col f)) col =
        (getColAux cols rows col).map (List.map f) := by
  intro cols
  induction cols with
  | nil => intro rows col f _; rfl
  | cons c cs ih =>
    intro rows col f hf
    by_cases hc : c.1 = col
    · rw [getColAux_cons_pos _ _ _ _ hc, getColAux_cons_pos _ _ _ _ hc,
        Option.map_some', List.map_map, List.map_map]
      refine congrArg some (List.map_congr_left ?_)
      intro r _
      show (applyNamed (c.1 :: cs.map Prod.fst) col f r).getD 0 none =
        f (r.getD 0 none)
      cases r with
      | nil =>
        show ([] : List Cell).getD 0 none = f none
        rw [hf]
        rfl
      | cons x xs =>
        show (if c.1 = col then f x else x) = f x
        rw [if_pos hc]
    · rw [getColAux_cons_neg _ _ _ _ hc, getColAux_cons_neg _ _ _ _ hc,
        List.map_map]
      have hmaps :
          List.map ((fun r => List.drop 1 r) ∘
              applyNamed ((c :: cs).map Prod.fst) col f) rows =
            List.map (applyNamed (cs.map Prod.fst) col f)
              (List.map (fun r => List.drop 1 r) rows) := by
        rw [List.map_map]
        refine List.map_congr_left ?_
        intro r _
        show List.drop 1 (applyNamed ((c :: cs).map Prod.fst) col f r) =
          applyNamed (cs.map Prod.fst) col f (List.drop 1 r)
        rw [List.map_cons]
        cases r with
        | nil => simp [applyNamed]
        | cons x xs => simp [applyNamed]
      rw [hmaps]
      exact ih _ col f hf

theorem getColAux_applyNamed_other :
    ∀ (cols : List (String × Dtype)) (rows : List (List Cell)) (col2 col : String)
      (f : Cell → Cell), col2 ≠ col →
      getColAux cols (rows.map (applyNamed (cols.map Prod.fst) col2 f)) col =
        getColAux cols rows col := by
  intro cols
  induction cols with
  | nil => intro rows col2 col f _; rfl
  | cons c cs ih =>
    intro rows col2 col f hne
    by_cases hc : c.1 = col
    · rw [getColAux_cons_pos _ _ _ _ hc, getColAux_cons_pos _ _ _ _ hc,
        List.map_map]
      refine congrArg some (List.map_congr_left ?_)
      intro r _
      show (applyNamed (c.1 :: cs.map Prod.fst) col2 f r).getD 0 none =
        r.getD 0 none
      cases r with
      | nil => rfl
      | cons x xs =>
        show (if c.1 = col2 then f x else x) = x
        rw [if_neg (fun h => hne (h.symm.trans hc))]
    · rw [getColAux_cons_neg _ _ _ _ hc, getColAux_cons_neg _ _ _ _ hc,
        List.map_map]
      have hmaps :
          List.map ((fun r => List.drop 1 r) ∘
              applyNamed ((c :: cs).map Prod.fst) col2 f) rows =
            List.map (applyNamed (cs.map Prod.fst) col2 f)
              (List.map (fun r => List.drop 1 r) rows) := by
        rw [List.map_map]
        refine List.map_congr_left ?_
        intro r _
        show List.drop 1 (applyNamed ((c :: cs).map Prod.fst) col2 f r) =
          applyNamed (cs.map Prod.fst) col2 f (List.drop 1 r)
        rw [List.map_cons]
        cases r with
        | nil => simp [applyNamed]
        | cons x xs => simp [applyNamed]
      rw [hmaps]
      exact ih _ col2 col f hne

theorem mapBinaryCol_colNames (t : Table) (col : String) :
    (mapBinaryCol t col).colNames = t.colNames := by
  unfold mapBinaryCol Table.colNames
  rw [List.map_map]
  exact List.map_congr_left fun c _ => by
    by_cases h : c.1 = col <;> simp [h]

theorem getCol_mapBinaryCol_self (t : Table) (col : String) :
    (mapBinaryCol t col).getCol col = (t.getCol col).map (List.map binmap) := by
  show getColAux (t.cols.map (fun c => if c.1 = col then (c.1, Dtype.numeric) else c))
      (t.rows.map (applyNamed t.colNames col binmap)) col =
    (getColAux t.cols t.rows col).map (List.map binmap)
  rw [getColAux_names_congr
    (t.cols.map (fun c => if c.1 = col then (c.1, Dtype.numeric) else c)) t.cols _ col
    (by
      rw [List.map_map]
      exact List.map_congr_left fun c _ => by
        by_cases h : c.1 = col <;> simp [h])]
  exact getColAux_applyNamed_self t.cols t.rows col binmap rfl

theorem getCol_mapBinaryCol_other (t : Table) (col2 col : String) (h : col2 ≠ col) :
    (mapBinaryCol t col2).getCol col = t.getCol col := by
  show getColAux (t.cols.map (fun c => if c.1 = col2 then (c.1, Dtype.numeric) else c))
      (t.rows.map (applyNamed t.colNames col2 binmap)) col =
    getColAux t.cols t.rows col
  rw [getColAux_names_congr
    (t.cols.map (fun c => if c.1 = col2 then (c.1, Dtype.numeric) else c)) t.cols _ col
    (by
      rw [List.map_map]
      exact List.map_congr_left fun c _ => by
        by_cases hx : c.1 = col2 <;> simp [hx])]
  exact getColAux_applyNamed_other t.cols t.rows col2 col binmap h

theorem getDtype_mapBinaryCol_aux (col : String) :
    ∀ (cols : List (String × Dtype)), col ∈ cols.map Prod.fst →
      ((cols.map (fun c => if c.1 = col then (c.1, Dtype.numeric) else c)).find?
        (fun c => c.1 = col)).map (fun c => c.2) = some Dtype.numeric := by
  intro cols
  induction cols with
  | nil => intro hmem; simp at hmem
  | cons c cs ih =>
    intro hmem
    by_cases hc : c.1 = col
    · rw [List.map_cons, if_pos hc,
        List.find?_cons_of_pos _ (by simpa using hc)]
      rfl
    · rw [List.map_cons, if_neg hc,
        List.find?_cons_of_neg _ (by simpa using hc)]
      refine ih ?_
      rw [List.map_cons] at hmem
      rcases List.mem_cons.mp hmem with h1 | h1
      · exact absurd h1.symm hc
      · exact h1

theorem getDtype_mapBinaryCol_self (t : Table) (col : String)
    (hmem : col ∈ t.colNames) :
    (mapBinaryCol t col).getDtype col = some Dtype.numeric :=
  getDtype_mapBinaryCol_aux col t.cols hmem

theorem getDtype_mapBinaryCol_other (t : Table) (col2 col : String) (h : col2 ≠ col) :
    (mapBinaryCol t col2).getDtype col = t.getDtype col := by
  show ((t.cols.map (fun c => if c.1 = col2 then (c.1, Dtype.numeric) else c)).find?
      (fun c => c.1 = col)).map (fun c => c.2) =
    (t.cols.find? (fun c => c.1 = col)).map (fun c => c.2)
  induction t.cols with
  | nil => rfl
  | cons c cs ih =>
    by_cases hc : c.1 = col
    · have hc2 : ¬ c.1 = col2 := fun hx => h (hx.symm.trans hc)
      rw [List.map_cons, if_neg hc2, List.find?_cons_of_pos _ (by simpa using hc),
        List.find?_cons_of_pos _ (by simpa using hc)]
    · by_cases hc2 : c.1 = col2
      · rw [List.map_cons, if_pos hc2,
          List.find?_cons_of_neg _ (by simpa using hc),
          List.find?_cons_of_neg _ (by simpa using hc)]
        exact ih
      · rw [List.map_cons, if_neg hc2,
          List.find?_cons_of_neg _ (by simpa using hc),
          List.find?_cons_of_neg _ (by simpa using hc)]
        exact ih

theorem mapBinaryCol_WF (t : Table) (col : String) (hwf : t.WF) :
    (mapBinaryCol t col).WF := by
  intro r hr
  unfold mapBinaryCol at hr ⊢
  simp only [List.length_map]
  rcases List.mem_map.mp hr with ⟨r0, hr0, rfl⟩
  rw [applyNamed_length]
  exact hwf r0 hr0

theorem binaryStep_WF (acc : Table) (col : String) (hwf : acc.WF) :
    (binaryStep acc col).WF := by
  unfold binaryStep
  by_cases hmem : col ∈ acc.colNames
  · rw [if_pos hmem]
    exact mapBinaryCol_WF acc col hwf
  · rw [if_neg hmem]
    exact hwf

theorem foldl_binaryStep_other :
    ∀ (l : List String) (acc : Table) (col : String), col ∉ l →
      (l.foldl binaryStep acc).getCol col = acc.getCol col ∧
      (l.foldl binaryStep acc).getDtype col = acc.getDtype col := by
  intro l
  induction l with
  | nil => intro acc col _; exact ⟨rfl, rfl⟩
  | cons x l ih =>
    intro acc col hcol
    have hx : x ≠ col := fun h => hcol (by rw [h]; exact List.mem_cons_self _ _)
    have hl : col ∉ l := fun h => hcol (List.mem_cons_of_mem _ h)
    rw [List.foldl_cons]
    obtain ⟨hg, hd⟩ := ih (binaryStep acc x) col hl
    have hstep : (binaryStep acc x).getCol col = acc.getCol col ∧
        (binaryStep acc x).getDtype col = acc.getDtype col := by
      unfold binaryStep
      by_cases hmem : x ∈ acc.colNames
      · rw [if_pos hmem]
        exact ⟨getCol_mapBinaryCol_other acc x col hx,
          getDtype_mapBinaryCol_other acc x col hx⟩
      · rw [if_neg hmem]
        exact ⟨rfl, rfl⟩
    rw [hg, hd, hstep.1, hstep.2]
    exact ⟨rfl, rfl⟩

theorem foldl_binaryStep_main :
    ∀ (bc : List String) (acc : Table) (col : String), bc.Nodup → col ∈ bc →
      col ∈ acc.colNames →
      (bc.foldl binaryStep acc).getCol col = (acc.getCol col).map (List.map binmap) ∧
      (bc.foldl binaryStep acc).getDtype col = some Dtype.numeric := by
  intro bc
  induction bc with
  | nil => intro acc col _ hmem _; simp at hmem
  | cons b bs ih =>
    intro acc col hnd hmem hpres
    rw [List.foldl_cons]
    by_cases hb : b = col
    · subst hb
      have hstep : binaryStep acc b = mapBinaryCol acc b := by
        unfold binaryStep
        rw [if_pos hpres]
      rw [hstep]
      have hnotin : b ∉ bs := (List.nodup_cons.mp hnd).1
      obtain ⟨hg, hd⟩ := foldl_binaryStep_other bs (mapBinaryCol acc b) b hnotin
      refine ⟨?_, ?_⟩
      · rw [hg, getCol_mapBinaryCol_self]
      · rw [hd, getDtype_mapBinaryCol_self _ _ hpres]
    · have hmem' : col ∈ bs := by
        rcases List.mem_cons.mp hmem with h1 | h1
        · exact absurd h1.symm hb
        · exact h1
      have hpres' : col ∈ (binaryStep acc b).colNames := by
        rw [binaryStep_colNames]
        exact hpres
      obtain ⟨hg, hd⟩ := ih (binaryStep acc b) col (List.nodup_cons.mp hnd).2
        hmem' hpres'
      have hstep : (binaryStep acc b).getCol col = acc.getCol col := by
        unfold binaryStep
        by_cases hm : b ∈ acc.colNames
        · rw [if_pos hm]
          exact getCol_mapBinaryCol_other acc b col hb
        · rw [if_neg hm]
      rw [hg, hd, hstep]
      exact ⟨rfl, rfl⟩

theorem dropByNames_WF (t : Table) (lst : List String) (hwf : t.WF) :
    (dropByNames t lst).WF := by
  intro r hr
  simp only [dropByNames] at hr ⊢
  rcases List.mem_map.mp hr with ⟨r0, hr0, rfl⟩
  exact dropMasked_length_congr _ _ _ (hwf r0 hr0)

theorem dropByNames_getCol (t : Table) (lst : List String) (col : String)
    (hwf : t.WF)
    (hkept : keptCol (t.cols.map (fun c => decide (c.1 ∈ lst))) t.cols col = true) :
    (dropByNames t lst).getCol col = t.getCol col := by
  show getColAux (dropMasked (t.cols.map (fun c => decide (c.1 ∈ lst))) t.cols)
      (t.rows.map (fun r =>
        dropMasked (t.cols.map (fun c => decide (c.1 ∈ lst))) r)) col =
    getColAux t.cols t.rows col
  exact getColAux_dropMasked t.cols _ t.rows col (by rw [List.length_map]) hwf hkept

theorem dropByNames_getDtype (t : Table) (lst : List String) (col : String)
    (hkept : keptCol (t.cols.map (fun c => decide (c.1 ∈ lst))) t.cols col = true) :
    (dropByNames t lst).getDtype col = t.getDtype col := by
  show Option.map (fun c : String × Dtype => c.2)
      ((dropMasked (t.cols.map (fun c => decide (c.1 ∈ lst))) t.cols).find?
        (fun c => c.1 = col)) =
    Option.map (fun c : String × Dtype => c.2) (t.cols.find? (fun c => c.1 = col))
  rw [find?_dropMasked col t.cols _ (by rw [List.length_map]) hkept]

theorem dropByNames_colNames_mem (t : Table) (lst : List String) (col : String)
    (hkept : keptCol (t.cols.map (fun c => decide (c.1 ∈ lst))) t.cols col = true) :
    col ∈ (dropByNames t lst).colNames := by
  show col ∈ (dropMasked (t.cols.map (fun c => decide (c.1 ∈ lst))) t.cols).map Prod.fst
  exact keptCol_mem col t.cols _ hkept

theorem dropStage_preserve (t : Table) (dc : List String) (col : String)
    (cells : List Cell) (hwf : t.WF) (hdc : col ∉ dc)
    (hget : t.getCol col = some cells) :
    (dropStage t (some dc)).getCol col = some cells ∧
    (dropStage t (some dc)).getDtype col = t.getDtype col ∧
    (dropStage t (some dc)).WF ∧ col ∈ (dropStage t (some dc)).colNames := by
  cases dc with
  | nil => exact ⟨hget, rfl, hwf, getCol_mem t col cells hget⟩
  | cons d ds =>
    have hnot : col ∉ (d :: ds).filter (fun c => decide (c ∈ t.colNames)) :=
      fun h => hdc (List.mem_of_mem_filter h)
    have hmem : col ∈ t.colNames := getCol_mem t col cells hget
    have hkept : keptCol
        (t.cols.map (fun c =>
          decide (c.1 ∈ (d :: ds).filter (fun c => decide (c ∈ t.colNames)))))
        t.cols col = true :=
      keptCol_dropNames col _ t.cols hmem hnot
    have hstage : dropStage t (some (d :: ds)) =
        dropByNames t ((d :: ds).filter (fun c => decide (c ∈ t.colNames))) := rfl
    refine ⟨?_, ?_, ?_, ?_⟩
    · rw [hstage, dropByNames_getCol t _ col hwf hkept]
      exact hget
    · rw [hstage]
      exact dropByNames_getDtype t _ col hkept
    · rw [hstage]
      exact dropByNames_WF t _ hwf
    · rw [hstage]
      exact dropByNames_colNames_mem t _ col hkept

theorem foldl_binaryStep_WF (l : List String) (acc : Table) (hwf : acc.WF) :
    (l.foldl binaryStep acc).WF :=
  foldl_preserves binaryStep Table.WF (fun b a hb => binaryStep_WF b a hb) l acc hwf

theorem get_dummies_numeric_col (t : Table) (col : String) (cells : List Cell)
    (hwf : t.WF) (hdt : t.getDtype col = some Dtype.numeric)
    (hget : t.getCol col = some cells) :
    (get_dummies t).getCol col = some cells ∧
    (get_dummies t).getDtype col = some Dtype.numeric := by
  have hkept : keptCol (objMask t) t.cols col = true := keptCol_objMask t col hdt
  have hmasklen : (objMask t).length = t.cols.length := by
    simp [objMask]
  constructor
  · show getColAux
      (dropMasked (objMask t) t.cols ++ dummyCols (dummyInfo t))
      (t.rows.map (fun r =>
        dropMasked (objMask t) r ++ mkDummies (dummyInfo t) r)) col = some cells
    rw [getColAux_append (dropMasked (objMask t) t.cols) (dummyCols (dummyInfo t))
      t.rows (fun r => dropMasked (objMask t) r) (mkDummies (dummyInfo t)) col
      (fun r hr => dropMasked_length_congr _ _ _ (hwf r hr))
      (keptCol_mem col t.cols _ hkept),
      getColAux_dropMasked t.cols (objMask t) t.rows col hmasklen hwf hkept]
    exact hget
  · show (Option.map (fun c => c.2)
      ((dropMasked (objMask t) t.cols ++ dummyCols (dummyInfo t)).find?
        (fun c => c.1 = col))) = some Dtype.numeric
    obtain ⟨c0, hc0, hc02⟩ : ∃ c0, t.cols.find? (fun c => c.1 = col) = some c0 ∧
        c0.2 = Dtype.numeric := by
      unfold Table.getDtype at hdt
      cases hfind : t.cols.find? (fun c => c.1 = col) with
      | none => rw [hfind] at hdt; exact Option.noConfusion hdt
      | some c0 =>
        rw [hfind] at hdt
        exact ⟨c0, rfl, by simpa using hdt⟩
    rw [find?_append_left _ _ _ c0
      (by rw [find?_dropMasked col t.cols _ hmasklen hkept]; exact hc0)]
    simp [hc02]

/-- C6: for a column named in `binary_cols` (present, not dropped, named once),
`convert_categorical` applies exactly the remapping `{1 -> 0, 2 -> 1}` to every
value, the column comes out with the float dtype, and any value outside
`{1, 2}` (including an already-missing one) maps to the missing marker, never
to `0` or `1`. -/
theorem C6_binary_remap (t : Table) (bc dc : List String) (col : String)
    (cells : List Cell) (hwf : t.WF) (hbc : bc.Nodup) (hcol : col ∈ bc)
    (hdc : col ∉ dc) (hget : t.getCol col = some cells) :
    (convert_categorical t (some bc) (some dc)).getCol col =
      some (cells.map binmap) ∧
    (convert_categorical t (some bc) (some dc)).getDtype col = some Dtype.numeric ∧
    (∀ c ∈ cells, c ≠ some (Val.num 1) → c ≠ some (Val.num 2) →
      binmap c = none) := by
  obtain ⟨hg1, hd1, hwf1, hpres1⟩ := dropStage_preserve t dc col cells hwf hdc hget
  cases bc with
  | nil => simp at hcol
  | cons b bs =>
    have hstage : binaryStage (some (b :: bs)) (dropStage t (some dc)) =
        (b :: bs).foldl binaryStep (dropStage t (some dc)) := rfl
    obtain ⟨hg2, hd2⟩ := foldl_binaryStep_main (b :: bs) (dropStage t (some dc))
      col hbc hcol hpres1
    have hwf2 : ((b :: bs).foldl binaryStep (dropStage t (some dc))).WF :=
      foldl_binaryStep_WF _ _ hwf1
    have hget2 : ((b :: bs).foldl binaryStep (dropStage t (some dc))).getCol col =
        some (cells.map binmap) := by
      rw [hg2, hg1]
      rfl
    obtain ⟨hg3, hd3⟩ := get_dummies_numeric_col _ col (cells.map binmap) hwf2 hd2 hget2
    refine ⟨?_, ?_, ?_⟩
    · show (get_dummies (binaryStage (some (b :: bs))
        (dropStage t (some dc)))).getCol col = some (cells.map binmap)
      rw [hstage]
      exact hg3
    · show (get_dummies (binaryStage (some (b :: bs))
        (dropStage t (some dc)))).getDtype col = some Dtype.numeric
      rw [hstage]
      exact hd3
    · intro c hc h1 h2
      match c with
      | none => rfl
      | some (Val.str sv) => rfl
      | some (Val.num q) =>
        have hq1 : ¬ q = 1 := fun h => h1 (by rw [h])
        have hq2 : ¬ q = 2 := fun h => h2 (by rw [h])
        show (if q = 1 then some (Val.num 0)
          else if q = 2 then some (Val.num 1) else none) = none
        rw [if_neg hq1, if_neg hq2]

/-- C6 (witness): `binary_cols=["X"]` with values `[1, 2, 1]` yields
`[0.0, 1.0, 0.0]`. -/
theorem C6_binary_remap_witness :
    (Table.mk [("X", Dtype.numeric)]
        [[some (Val.num 1)], [some (Val.num 2)], [some (Val.num 1)]]).getCol "X" =
      some [some (Val.num 1), some (Val.num 2), some (Val.num 1)] ∧
    (convert_categorical
      ⟨[("X", Dtype.numeric)],
        [[some (Val.num 1)], [some (Val.num 2)], [some (Val.num 1)]]⟩
      (some ["X"]) (some [])).getCol "X" =
      some [some (Val.num 0), some (Val.num 1), some (Val.num 0)] :=
  ⟨by decide,
    (C6_binary_remap
      ⟨[("X", Dtype.numeric)],
        [[some (Val.num 1)], [some (Val.num 2)], [some (Val.num 1)]]⟩
      ["X"] [] "X" [some (Val.num 1), some (Val.num 2), some (Val.num 1)]
      (by decide) (by decide) (by decide) (by decide) (by decide)).1⟩

end Segments
